import Mathlib

/-!
Verification of the ingress-migration-analyzer core: a shallow embedding of
the rule table, annotation matcher, risk resolver, unknown detector,
inventory builder, criticality ranker and namespace complexity scorer,
together with theorems settling the specification claims.

Go maps are embedded as association lists; the list order stands for the
(in Go unspecified) iteration order, so a property of the code that must
hold for every iteration order is stated for every list order.  Go machine
integers only ever count input elements here and are embedded as `Nat`.
-/

set_option maxRecDepth 8000

/-- Risk level, a string in the source (`type RiskLevel string`). -/
abbrev RiskLevel := String

def RiskAuto : RiskLevel := "AUTO"

def RiskManual : RiskLevel := "MANUAL"

def RiskHigh : RiskLevel := "HIGH_RISK"

/-- Embeds `models.AnnotationRule`. -/
structure AnnotationRule where
  name : String
  pattern : String
  riskLevel : RiskLevel
  description : String
  migrationNote : String
  sourceURL : String
  deriving DecidableEq, Repr

/-- Embeds `rules.GetAnnotationRules`: the fixed ordered rule table. -/
def GetAnnotationRules : List AnnotationRule :=
  [ { name := "Rewrite Target",
      pattern := "nginx.ingress.kubernetes.io/rewrite-target",
      riskLevel := RiskAuto,
      description := "URL path rewriting functionality",
      migrationNote := "Gateway API HTTPRoute supports path rewriting via URLRewrite filters (GEP-726). Most Gateway implementations support this feature.",
      sourceURL := "https://gateway-api.sigs.k8s.io/guides/http-redirect-rewrite/" },
    { name := "SSL Redirect",
      pattern := "nginx.ingress.kubernetes.io/ssl-redirect",
      riskLevel := RiskAuto,
      description := "Automatic HTTPS redirect",
      migrationNote := "Gateway API HTTPRoute supports HTTPS redirects via RequestRedirect filters. Standard feature across Gateway implementations.",
      sourceURL := "https://gateway-api.sigs.k8s.io/guides/http-redirect-rewrite/" },
    { name := "Force SSL Redirect",
      pattern := "nginx.ingress.kubernetes.io/force-ssl-redirect",
      riskLevel := RiskAuto,
      description := "Force HTTPS redirect even for non-SSL listeners",
      migrationNote := "Gateway API HTTPRoute supports HTTPS redirects via RequestRedirect filters. Similar implementation pattern to ssl-redirect.",
      sourceURL := "https://gateway-api.sigs.k8s.io/guides/http-redirect-rewrite/" },
    { name := "Backend Protocol",
      pattern := "nginx.ingress.kubernetes.io/backend-protocol",
      riskLevel := RiskManual,
      description := "Specifies protocol for backend communication (HTTP/HTTPS/GRPC/etc)",
      migrationNote := "Gateway API BackendRef supports protocol fields, but implementation varies by Gateway provider. Verify your Gateway supports the required protocols.",
      sourceURL := "https://gateway-api.sigs.k8s.io/reference/spec/#backendref" },
    { name := "Use Regex",
      pattern := "nginx.ingress.kubernetes.io/use-regex",
      riskLevel := RiskManual,
      description := "Enable regex matching for paths",
      migrationNote := "Gateway API HTTPRoute supports RegularExpression path matching (v1.1+). Verify your Gateway implementation supports regex and review syntax differences.",
      sourceURL := "https://gateway-api.sigs.k8s.io/reference/spec/#httppathmatch" },
    { name := "Proxy Body Size",
      pattern := "nginx.ingress.kubernetes.io/proxy-body-size",
      riskLevel := RiskManual,
      description := "Maximum size of the client request body",
      migrationNote := "No standardized Gateway API equivalent. Gateway implementations may support request size limits via vendor-specific policies. Check your Gateway documentation.",
      sourceURL := "https://kubernetes.github.io/ingress-nginx/user-guide/nginx-configuration/annotations/#proxy-body-size" },
    { name := "Proxy Read Timeout",
      pattern := "nginx.ingress.kubernetes.io/proxy-read-timeout",
      riskLevel := RiskManual,
      description := "Timeout for reading response from backend",
      migrationNote := "Gateway API may support timeouts via implementation-specific policies. Check your Gateway implementation\x27s policy support or use service mesh.",
      sourceURL := "https://kubernetes.github.io/ingress-nginx/user-guide/nginx-configuration/annotations/#proxy-read-timeout" },
    { name := "Proxy Send Timeout",
      pattern := "nginx.ingress.kubernetes.io/proxy-send-timeout",
      riskLevel := RiskManual,
      description := "Timeout for transmitting request to backend",
      migrationNote := "Similar to read timeout - check Gateway implementation policy support or implement at application/service mesh level.",
      sourceURL := "https://kubernetes.github.io/ingress-nginx/user-guide/nginx-configuration/annotations/#proxy-send-timeout" },
    { name := "Auth URL",
      pattern := "nginx.ingress.kubernetes.io/auth-url",
      riskLevel := RiskManual,
      description := "External authentication service URL",
      migrationNote := "Gateway API doesn\x27t standardize external auth, but many implementations support it. Consider OAuth2/OIDC policies or service mesh auth instead.",
      sourceURL := "https://kubernetes.github.io/ingress-nginx/user-guide/nginx-configuration/annotations/#auth-url" },
    { name := "Proxy Connect Timeout",
      pattern := "nginx.ingress.kubernetes.io/proxy-connect-timeout",
      riskLevel := RiskManual,
      description := "Timeout for establishing connection to backend",
      migrationNote := "Check Gateway implementation support for connection timeouts or implement circuit breaker patterns at the application level.",
      sourceURL := "https://kubernetes.github.io/ingress-nginx/user-guide/nginx-configuration/annotations/#proxy-connect-timeout" },
    { name := "Client Body Buffer Size",
      pattern := "nginx.ingress.kubernetes.io/client-body-buffer-size",
      riskLevel := RiskManual,
      description := "Buffer size for reading client request body",
      migrationNote := "Implementation-specific setting. Review if your application requires specific buffering behavior and implement accordingly.",
      sourceURL := "https://kubernetes.github.io/ingress-nginx/user-guide/nginx-configuration/annotations/#client-body-buffer-size" },
    { name := "CORS Enable",
      pattern := "nginx.ingress.kubernetes.io/enable-cors",
      riskLevel := RiskManual,
      description := "Enable CORS headers",
      migrationNote := "Some Gateway implementations support CORS via policies. Alternatively, implement CORS at application level or via service mesh.",
      sourceURL := "https://kubernetes.github.io/ingress-nginx/user-guide/nginx-configuration/annotations/#enable-cors" },
    { name := "Rate Limiting",
      pattern := "nginx.ingress.kubernetes.io/rate-limit",
      riskLevel := RiskManual,
      description := "Request rate limiting configuration",
      migrationNote := "Gateway API is developing rate limiting standards (GEP-1731). Check your Gateway implementation or use service mesh rate limiting.",
      sourceURL := "https://kubernetes.github.io/ingress-nginx/user-guide/nginx-configuration/annotations/#rate-limiting" },
    { name := "Server Snippet",
      pattern := "nginx.ingress.kubernetes.io/server-snippet",
      riskLevel := RiskHigh,
      description := "Custom NGINX server block configuration",
      migrationNote := "Server snippets contain custom NGINX configuration that has no Gateway API equivalent. Review the configuration and implement equivalent functionality using Gateway policies, service mesh, or consider staying with NGINX Inc commercial controller.",
      sourceURL := "https://kubernetes.github.io/ingress-nginx/user-guide/nginx-configuration/annotations/#server-snippet" },
    { name := "Configuration Snippet",
      pattern := "nginx.ingress.kubernetes.io/configuration-snippet",
      riskLevel := RiskHigh,
      description := "Custom NGINX location block configuration",
      migrationNote := "Configuration snippets require manual analysis and reimplementation. Consider Gateway API policies, service mesh capabilities, or application-level changes.",
      sourceURL := "https://kubernetes.github.io/ingress-nginx/user-guide/nginx-configuration/annotations/#configuration-snippet" },
    { name := "Location Snippet",
      pattern := "nginx.ingress.kubernetes.io/location-snippet",
      riskLevel := RiskHigh,
      description := "Custom NGINX location configuration",
      migrationNote := "Location snippets need careful review for functionality. Map to Gateway API filters, policies, or service mesh configurations where possible.",
      sourceURL := "https://kubernetes.github.io/ingress-nginx/user-guide/nginx-configuration/annotations/#configuration-snippet" },
    { name := "Stream Snippet",
      pattern := "nginx.ingress.kubernetes.io/stream-snippet",
      riskLevel := RiskHigh,
      description := "Custom NGINX stream configuration for TCP/UDP",
      migrationNote := "Stream snippets are for Layer 4 routing. Gateway API supports TCP/UDP via TCPRoute/UDPRoute, but custom stream logic requires reimplementation.",
      sourceURL := "https://gateway-api.sigs.k8s.io/reference/spec/#tcproute" },
    { name := "Http Snippet",
      pattern := "nginx.ingress.kubernetes.io/http-snippet",
      riskLevel := RiskHigh,
      description := "Custom NGINX http block configuration",
      migrationNote := "HTTP snippets affect global behavior. Requires careful analysis and potential migration to Gateway-level policies or infrastructure changes.",
      sourceURL := "https://kubernetes.github.io/ingress-nginx/user-guide/nginx-configuration/annotations/#configuration-snippet" } ]

/-- Embeds `rules.GetRuleByPattern`: first rule whose pattern literally
equals the key (Go compares with string equality here). -/
def GetRuleByPattern (annotationKey : String) : Option AnnotationRule :=
  GetAnnotationRules.find? (fun rule => rule.pattern == annotationKey)

/-- Anchored step of Go regular-expression matching for the patterns of the
rule table.  Every pattern in the table consists of literal characters and
the metacharacter dot, which in a Go regular expression matches any single
character, so matching a pattern at one alignment is a character-wise
comparison where dot always succeeds. -/
def matchHere : List Char → List Char → Bool
  | [], _ => true
  | _ :: _, [] => false
  | p :: ps, c :: cs => (p == '.' || p == c) && matchHere ps cs

/-- Unanchored search of the pattern inside the string, as
`regexp.MatchString` performs it: the pattern may match at any position. -/
def matchSomewhere (p : List Char) : List Char → Bool
  | [] => matchHere p []
  | c :: cs => matchHere p (c :: cs) || matchSomewhere p cs

/-- Embeds `regexp.MatchString(pattern, s)` for the rule-table patterns
(unanchored match, dot as single-character wildcard, no other
metacharacter occurs in the table). -/
def regexpMatch (pattern s : String) : Bool :=
  matchSomewhere pattern.data s.data

/-- The inner loop of `rules.MatchAnnotations`: the first rule of the table
whose pattern regex-matches the key (the loop breaks after one match). -/
def firstMatchingRule : List AnnotationRule → String → Option AnnotationRule
  | [], _ => none
  | rule :: rest, key =>
    if regexpMatch rule.pattern key then some rule else firstMatchingRule rest key

/-- Embeds `rules.MatchAnnotations`: one pass over the annotation map
(iteration order given by the list), collecting at most one rule per key. -/
def MatchAnnotations (annotations : List (String × String)) : List AnnotationRule :=
  annotations.foldl (fun acc kv =>
    match firstMatchingRule GetAnnotationRules kv.1 with
    | some rule => acc ++ [rule]
    | none => acc) []

/-- Embeds Go `strings.HasPrefix s p` at the character-list level. -/
def strStartsWith (s p : String) : Bool :=
  p.data.isPrefixOf s.data

def nginxPrefixStr : String := "nginx.ingress.kubernetes.io/"

def exactLookupProbeKey : String := "anginx.ingress.kubernetes.io/ssl-redirect"

def confSnippetKey : String := "nginx.ingress.kubernetes.io/configuration-snippet"

def serverSnippetKey : String := "nginx.ingress.kubernetes.io/server-snippet"

/-- Embeds `rules.GetUnknownNginxAnnotations`: keys inside the nginx prefix
with no rule whose pattern equals the key (the Go code materialises the set
of known patterns first; membership in that set is `any` over the table). -/
def GetUnknownNginxAnnotations (annotations : List (String × String)) : List String :=
  annotations.foldl (fun acc kv =>
    if strStartsWith kv.1 nginxPrefixStr &&
        !(GetAnnotationRules.any (fun rule => rule.pattern == kv.1)) then
      acc ++ [kv.1]
    else acc) []

/-- The loop of `rules.GetHighestRiskLevel`, short-circuiting on HIGH_RISK
and remembering whether MANUAL was seen. -/
def highestRiskLoop : List AnnotationRule → RiskLevel → RiskLevel
  | [], highest => highest
  | rule :: rest, highest =>
    if rule.riskLevel == RiskHigh then RiskHigh
    else if rule.riskLevel == RiskManual then highestRiskLoop rest RiskManual
    else highestRiskLoop rest highest

/-- Embeds `rules.GetHighestRiskLevel`. -/
def GetHighestRiskLevel (rules : List AnnotationRule) : RiskLevel :=
  if rules.length == 0 then RiskAuto
  else highestRiskLoop rules RiskAuto

section AssocMap

variable {β : Type} (keyOf : β → String)

/-- Lookup in a Go map embedded as an association list: the first element
with the given key. -/
def findByKey (m : List β) (key : String) : Option β :=
  m.find? (fun x => keyOf x == key)

/-- Go map update-or-insert through a `getOrCreate` pointer: if an element
with the key exists it is transformed in place by `f`, otherwise `f create`
is appended (insertion order is the embedded iteration order). -/
def updateByKey (m : List β) (key : String) (create : β) (f : β → β) : List β :=
  match findByKey keyOf m key with
  | some _ => m.map (fun x => if keyOf x == key then f x else x)
  | none => m ++ [f create]

/-- The key list of an embedded map. -/
def keysOf (m : List β) : List String :=
  m.map keyOf

end AssocMap

/-- Substring search: does `sub` occur (contiguously) inside the list. -/
def infixSearch (sub : List Char) : List Char → Bool
  | [] => sub.isEmpty
  | c :: cs => sub.isPrefixOf (c :: cs) || infixSearch sub cs

/-- Embeds Go `strings.Contains s sub` at the character-list level. -/
def strContains (s sub : String) : Bool :=
  infixSearch sub.data s.data

def snippetStr : String := "snippet"

def ingressClassKey : String := "kubernetes.io/ingress.class"

/-- Embeds `models.IngressResource` restricted to the fields the analysis
core reads (labels, hosts, paths and createdAt are carried through the Go
code unread); `ns` embeds the Namespace field and `annotations` the
annotation map in iteration order. -/
structure IngressResource where
  name : String
  ns : String
  className : String
  annotations : List (String × String)
  deriving DecidableEq, Repr

/-- Embeds `models.IngressAnalysis`. -/
structure IngressAnalysis where
  resource : IngressResource
  matchedRules : List AnnotationRule
  riskLevel : RiskLevel
  unknownAnnotations : List String
  warnings : List String
  deriving DecidableEq, Repr

/-- Embeds `Analyzer.generateWarnings`. -/
def generateWarnings (resource : IngressResource)
    (matchedRules : List AnnotationRule) : List String :=
  let warnings : List String := []
  let warnings := matchedRules.foldl (fun ws rule =>
    if strContains rule.pattern snippetStr then
      ws ++ [ "Contains " ++ rule.name ++ ": requires manual review and reimplementation"]
    else ws) warnings
  let unknown := GetUnknownNginxAnnotations resource.annotations
  let warnings :=
    if unknown.length > 0 then
      warnings ++ [ "Contains " ++ toString unknown.length ++ " unknown nginx annotations"]
    else warnings
  let warnings :=
    match resource.annotations.find? (fun kv => kv.1 == ingressClassKey) with
    | some kv =>
      if kv.2 == "nginx" && resource.className == "" then
        warnings ++
          [ "Uses deprecated kubernetes.io/ingress.class annotation instead of spec.ingressClassName"]
      else warnings
    | none => warnings
  warnings

/-- Embeds `Analyzer.analyzeIngress`: the per-resource pass. -/
def analyzeIngress (resource : IngressResource) : IngressAnalysis :=
  let matchedRules := MatchAnnotations resource.annotations
  let riskLevel := GetHighestRiskLevel matchedRules
  let unknown := GetUnknownNginxAnnotations resource.annotations
  let warnings := generateWarnings resource matchedRules
  { resource := resource, matchedRules := matchedRules, riskLevel := riskLevel,
    unknownAnnotations := unknown, warnings := warnings }

/-- Embeds `models.NamespaceSummary`. -/
structure NamespaceSummary where
  autoCount : Nat
  manualCount : Nat
  highRiskCount : Nat
  deriving DecidableEq, Repr

/-- Embeds `models.AnalysisSummary` with the per-namespace Go map as an
association list. -/
structure AnalysisSummary where
  totalIngresses : Nat
  autoCount : Nat
  manualCount : Nat
  highRiskCount : Nat
  byNamespace : List (String × NamespaceSummary)
  deriving DecidableEq, Repr

/-- Go map read `summary.ByNamespace[ns]` with the zero value as default. -/
def getNsSummary (m : List (String × NamespaceSummary)) (nsName : String) :
    NamespaceSummary :=
  match findByKey Prod.fst m nsName with
  | some p => p.2
  | none => { autoCount := 0, manualCount := 0, highRiskCount := 0 }

/-- Go map write `summary.ByNamespace[ns] = v`. -/
def setNsSummary (m : List (String × NamespaceSummary)) (nsName : String)
    (v : NamespaceSummary) : List (String × NamespaceSummary) :=
  updateByKey Prod.fst m nsName (nsName, v) (fun _ => (nsName, v))

/-- One iteration of the counting loop of `Analyzer.generateSummary`. -/
def summaryStep (s : AnalysisSummary) (analysis : IngressAnalysis) : AnalysisSummary :=
  let s :=
    if analysis.riskLevel == RiskAuto then { s with autoCount := s.autoCount + 1 }
    else if analysis.riskLevel == RiskManual then { s with manualCount := s.manualCount + 1 }
    else if analysis.riskLevel == RiskHigh then { s with highRiskCount := s.highRiskCount + 1 }
    else s
  let nsName := analysis.resource.ns
  let nsSummary := getNsSummary s.byNamespace nsName
  let nsSummary :=
    if analysis.riskLevel == RiskAuto then
      { nsSummary with autoCount := nsSummary.autoCount + 1 }
    else if analysis.riskLevel == RiskManual then
      { nsSummary with manualCount := nsSummary.manualCount + 1 }
    else if analysis.riskLevel == RiskHigh then
      { nsSummary with highRiskCount := nsSummary.highRiskCount + 1 }
    else nsSummary
  { s with byNamespace := setNsSummary s.byNamespace nsName nsSummary }

/-- Embeds `Analyzer.generateSummary`. -/
def generateSummary (analyses : List IngressAnalysis) : AnalysisSummary :=
  analyses.foldl summaryStep
    { totalIngresses := analyses.length, autoCount := 0, manualCount := 0,
      highRiskCount := 0, byNamespace := [] }

def sum3 (t : NamespaceSummary) : Nat :=
  t.autoCount + t.manualCount + t.highRiskCount

def countNs (analyses : List IngressAnalysis) (nsName : String) : Nat :=
  (analyses.filter (fun a => a.resource.ns == nsName)).length

/-- Invariant tying the per-namespace map to the list of already counted
analyses: keys are distinct, every entry holds exactly the number of
processed analyses of its namespace, and every processed namespace has an
entry. -/
def SummaryNsInv (processed : List IngressAnalysis)
    (m : List (String × NamespaceSummary)) : Prop :=
  (keysOf Prod.fst m).Nodup ∧
  (∀ p ∈ m, sum3 p.2 = countNs processed p.1) ∧
  (∀ a ∈ processed, a.resource.ns ∈ keysOf Prod.fst m)

/-- Embeds `analyze.AnnotationUsage`. -/
structure AnnotationUsage where
  key : String
  uniqueValues : List String
  usageCount : Nat
  namespaces : List String
  valueExamples : List (String × Nat)
  risk : RiskLevel
  description : String
  migrationNote : String
  sourceURL : String
  deriving DecidableEq, Repr

abbrev UsageMap := List AnnotationUsage

/-- The fresh record `getOrCreateUsage` builds (Go zero values for the
metadata fields: the empty string). -/
def emptyUsage (key : String) : AnnotationUsage :=
  { key := key, uniqueValues := [], usageCount := 0, namespaces := [],
    valueExamples := [], risk := "", description := "", migrationNote := "",
    sourceURL := "" }

/-- Embeds `analyze.updateUsage`: bump the count, dedup-append the value and
the namespace, bump the value histogram. -/
def updateUsage (usage : AnnotationUsage) (value nsName : String) : AnnotationUsage :=
  { usage with
    usageCount := usage.usageCount + 1,
    uniqueValues :=
      if usage.uniqueValues.contains value then usage.uniqueValues
      else usage.uniqueValues ++ [value],
    namespaces :=
      if usage.namespaces.contains nsName then usage.namespaces
      else usage.namespaces ++ [nsName],
    valueExamples :=
      updateByKey Prod.fst usage.valueExamples value (value, 0)
        (fun p => (p.1, p.2 + 1)) }

/-- Embeds the metadata attachment of `BuildAnnotationInventory` step 3: rule
metadata when the key has a rule, otherwise the UNKNOWN marker with the
generic unknown-annotation metadata. -/
def attachRuleInfo (usage : AnnotationUsage) : AnnotationUsage :=
  match GetRuleByPattern usage.key with
  | some rule =>
    { usage with
      risk := rule.riskLevel,
      description := rule.description,
      migrationNote := rule.migrationNote,
      sourceURL := rule.sourceURL }
  | none =>
    { usage with
      risk := "UNKNOWN",
      description := "Unknown nginx annotation - not in current knowledge base",
      migrationNote := "This annotation is not documented in our migration rules. Please research Gateway API equivalent or file an issue.",
      sourceURL := "" }

def systemPrefixes : List String :=
  [ "kubectl.kubernetes.io/",
    "deployment.kubernetes.io/",
    "control-plane.alpha.kubernetes.io/",
    "pv.kubernetes.io/",
    "volume.beta.kubernetes.io/",
    "alpha.kubernetes.io/",
    "beta.kubernetes.io/",
    "node.alpha.kubernetes.io/",
    "scheduler.alpha.kubernetes.io/",
    "autoscaling.alpha.kubernetes.io/",
    "controller.kubernetes.io/" ]

def systemExactKeys : List String :=
  [ "kubernetes.io/ingress.class",
    "field.cattle.io/publicEndpoints",
    "meta.helm.sh/release-name",
    "meta.helm.sh/release-namespace" ]

/-- Embeds the system-annotation noise filter of the inventory builder
(`isSystemAnnotation` in the source): a prefix from the prefix list or an
exact key from the exact list. -/
def isSystemAnnotationKey (key : String) : Bool :=
  systemPrefixes.any (fun p => strStartsWith key p) ||
    systemExactKeys.any (fun s => key == s)

/-- Go map read `analysis.Resource.Annotations[key]` (zero value for a
missing key). -/
def lookupValue (annotations : List (String × String)) (key : String) : String :=
  match findByKey Prod.fst annotations key with
  | some kv => kv.2
  | none => ""

/-- `getOrCreateUsage` followed by an in-place mutation `f` of the record. -/
def updateUsageMap (m : UsageMap) (key : String) (f : AnnotationUsage → AnnotationUsage) :
    UsageMap :=
  updateByKey AnnotationUsage.key m key (emptyUsage key) f

/-- One iteration of the annotation loop of `BuildAnnotationInventory`: skip
system keys, fold into the all map, and for nginx-prefixed keys fold into the
nginx map and attach rule metadata. -/
def processAnnotationsStep (nsName : String) (p : UsageMap × UsageMap)
    (kv : String × String) : UsageMap × UsageMap :=
  if isSystemAnnotationKey kv.1 then p
  else
    let allM := updateUsageMap p.1 kv.1 (fun u => updateUsage u kv.2 nsName)
    if strStartsWith kv.1 nginxPrefixStr then
      (allM, updateUsageMap p.2 kv.1 (fun u => attachRuleInfo (updateUsage u kv.2 nsName)))
    else
      (allM, p.2)

/-- One iteration of the unknown loop of `BuildAnnotationInventory`. -/
def processUnknownStep (annotations : List (String × String)) (nsName : String)
    (m : UsageMap) (key : String) : UsageMap :=
  updateUsageMap m key (fun u => updateUsage u (lookupValue annotations key) nsName)

/-- Folding one analysis into the three usage maps (all, nginx, unknown). -/
def buildStep (maps : UsageMap × UsageMap × UsageMap) (analysis : IngressAnalysis) :
    UsageMap × UsageMap × UsageMap :=
  let p := analysis.resource.annotations.foldl
    (processAnnotationsStep analysis.resource.ns) (maps.1, maps.2.1)
  let u := analysis.unknownAnnotations.foldl
    (processUnknownStep analysis.resource.annotations analysis.resource.ns) maps.2.2
  (p.1, p.2, u)

/-- Embeds `analyze.InventorySummary`.  The Go field MostUsedAnnotation is
embedded as `mostUsed`. -/
structure InventorySummary where
  totalUniqueAnnotations : Nat
  nginxAnnotationsCount : Nat
  unknownAnnotationsCount : Nat
  mostUsed : String
  mostComplexNamespace : String
  deriving DecidableEq, Repr

/-- Embeds `analyze.AnnotationInventory`. -/
structure AnnotationInventory where
  allAnnotations : UsageMap
  nginxAnnotations : UsageMap
  unknownAnnotations : UsageMap
  summary : InventorySummary
  deriving DecidableEq, Repr

/-- The most-used-key scan of `generateInventorySummary`: strictly greater
count wins, so on ties the record seen first in iteration order is kept. -/
def mostUsedFold (m : UsageMap) : String × Nat :=
  m.foldl (fun acc u => if u.usageCount > acc.2 then (u.key, u.usageCount) else acc)
    ("", 0)

/-- Embeds `analyze.generateInventorySummary` (MostComplexNamespace is never
assigned in the source and stays at its zero value). -/
def generateInventorySummary (inv : AnnotationInventory) : InventorySummary :=
  { totalUniqueAnnotations := inv.allAnnotations.length,
    nginxAnnotationsCount := inv.nginxAnnotations.length,
    unknownAnnotationsCount := inv.unknownAnnotations.length,
    mostUsed := (mostUsedFold inv.allAnnotations).1,
    mostComplexNamespace := "" }

/-- Embeds `analyze.BuildAnnotationInventory`. -/
def BuildAnnotationInventory (analyses : List IngressAnalysis) : AnnotationInventory :=
  let maps := analyses.foldl buildStep ([], [], [])
  let inv : AnnotationInventory :=
    { allAnnotations := maps.1,
      nginxAnnotations := maps.2.1,
      unknownAnnotations := maps.2.2,
      summary :=
        { totalUniqueAnnotations := 0,
          nginxAnnotationsCount := 0,
          unknownAnnotationsCount := 0,
          mostUsed := "",
          mostComplexNamespace := "" } }
  { inv with summary := generateInventorySummary inv }

/-- Stable descending insertion by usage count: an element moves ahead only
of strictly smaller counts, which is the order Go `sort.Slice` with the
comparator `count_i > count_j` produces (one admissible outcome of the
unspecified tie order; for fewer than twelve elements Go uses exactly this
stable insertion sort). -/
def insertDesc (x : AnnotationUsage) : List AnnotationUsage → List AnnotationUsage
  | [] => [x]
  | y :: ys => if x.usageCount > y.usageCount then x :: y :: ys else y :: insertDesc x ys

def sortByUsageDesc (l : List AnnotationUsage) : List AnnotationUsage :=
  l.foldl (fun acc x => insertDesc x acc) []

/-- The in-place marking `usage.Risk = "UNKNOWN"` applied to unknown-map
records inside `GetMostCriticalAnnotations`. -/
def markUnknown (u : AnnotationUsage) : AnnotationUsage :=
  { u with risk := "UNKNOWN" }

/-- Embeds `AnnotationInventory.GetMostCriticalAnnotations`.  The Go method
mutates the unknown records through their pointers while collecting them, so
the embedding returns the result list together with the post-call inventory. -/
def GetMostCriticalAnnotations (inv : AnnotationInventory) (limit : Nat) :
    List AnnotationUsage × AnnotationInventory :=
  let highs := inv.nginxAnnotations.filter (fun u => u.risk == RiskHigh)
  let unknowns := inv.unknownAnnotations.map markUnknown
  let critical := highs ++ unknowns
  let sorted := sortByUsageDesc critical
  let result := if sorted.length > limit then sorted.take limit else sorted
  (result, { inv with unknownAnnotations := unknowns })

/-- Go `riskCounts[risk] += n` on the inner map of the namespace scorer. -/
def addRiskCount (m : List (RiskLevel × Nat)) (risk : RiskLevel) (n : Nat) :
    List (RiskLevel × Nat) :=
  updateByKey Prod.fst m risk (risk, 0) (fun p => (p.1, p.2 + n))

/-- Go map read `riskCounts[risk]` with zero default. -/
def lookupRiskCount (m : List (RiskLevel × Nat)) (risk : RiskLevel) : Nat :=
  match findByKey Prod.fst m risk with
  | some p => p.2
  | none => 0

/-- Accumulation loop of `analyzeNamespaceComplexity`: every nginx record
adds its usage count under its risk level to every namespace it occurs in. -/
def nsComplexityAcc (acc : List (String × List (RiskLevel × Nat)))
    (u : AnnotationUsage) : List (String × List (RiskLevel × Nat)) :=
  u.namespaces.foldl (fun acc nsName =>
    updateByKey Prod.fst acc nsName (nsName, [])
      (fun p => (p.1, addRiskCount p.2 u.risk u.usageCount))) acc

/-- Classification loop body of `analyzeNamespaceComplexity`: skip a
namespace with zero counted total, otherwise append its label.  The Go
float64 expression `float64(high)/float64(total)*100` is embedded as exact
rational arithmetic; for the integer magnitudes a usage count can reach the
float computation is exact enough that both sides of the strict comparisons
with 50 and 20 agree. -/
def nsLabelStep (out : List (String × String))
    (p : String × List (RiskLevel × Nat)) : List (String × String) :=
  let total := lookupRiskCount p.2 RiskAuto + lookupRiskCount p.2 RiskManual
    + lookupRiskCount p.2 RiskHigh
  if total == 0 then out
  else
    let highRiskPercent : ℚ := (lookupRiskCount p.2 RiskHigh : ℚ) / (total : ℚ) * 100
    if highRiskPercent > 50 then
      out ++ [ (p.1, "HIGH complexity (many high-risk annotations)")]
    else if highRiskPercent > 20 then
      out ++ [ (p.1, "MEDIUM complexity (some high-risk annotations)")]
    else
      out ++ [ (p.1, "LOW complexity (mostly auto-migratable)")]

/-- Embeds `InventoryMarkdownGenerator.analyzeNamespaceComplexity`. -/
def analyzeNamespaceComplexity (inv : AnnotationInventory) : List (String × String) :=
  let namespaceAnnotationCounts := inv.nginxAnnotations.foldl nsComplexityAcc []
  namespaceAnnotationCounts.foldl nsLabelStep []

/-- Lexicographic (code-point) order on strings, written out on the
character lists so that it evaluates inside the kernel. -/
def charListLt : List Char → List Char → Bool
  | _, [] => false
  | [], _ :: _ => true
  | a :: as, b :: bs =>
    Nat.blt a.toNat b.toNat || (a == b && charListLt as bs)

def strLexLt (s t : String) : Bool :=
  charListLt s.data t.data

/-- Metadata fields at their Go zero value (the empty string). -/
def MetaClear (u : AnnotationUsage) : Prop :=
  u.risk = "" ∧ u.description = "" ∧ u.migrationNote = "" ∧ u.sourceURL = ""

/-- Does the annotation map contain the key. -/
def containsKeyA (annotations : List (String × String)) (key : String) : Bool :=
  (findByKey Prod.fst annotations key).isSome

/-- Common shape of the two per-annotation folds of the inventory builder:
update the record for the key when the guard accepts the key, attaching
`att` after the usage update (identity for the all map, rule metadata for
the nginx map). -/
def guardedStep (g : String → Bool) (att : AnnotationUsage → AnnotationUsage)
    (nsName : String) (m : UsageMap) (kv : String × String) : UsageMap :=
  if g kv.1 then updateUsageMap m kv.1 (fun u => att (updateUsage u kv.2 nsName)) else m

/-- Guard of the all-map fold: everything except system annotations. -/
def gAll (key : String) : Bool := !isSystemAnnotationKey key

/-- Guard of the nginx-map fold: non-system keys inside the nginx prefix. -/
def gNginx (key : String) : Bool :=
  !isSystemAnnotationKey key && strStartsWith key nginxPrefixStr

/-- Extensional characterisation of one usage map after folding the analyses
of `done`, for a per-analysis contribution predicate `contrib`, contributed
value `val` and post-update attachment `att`: distinct keys; a key is absent
iff nothing contributed to it; present records carry the exact contribution
count, namespace set and value set, and are an attachment image. -/
def MapInv (contrib : IngressAnalysis → String → Bool)
    (val : IngressAnalysis → String → String)
    (att : AnnotationUsage → AnnotationUsage)
    (done : List IngressAnalysis) (m : UsageMap) : Prop :=
  (keysOf AnnotationUsage.key m).Nodup ∧
  ∀ key : String,
    (findByKey AnnotationUsage.key m key = none →
      done.countP (fun a => contrib a key) = 0) ∧
    ∀ u, findByKey AnnotationUsage.key m key = some u →
      u.key = key ∧
      u.usageCount = done.countP (fun a => contrib a key) ∧
      0 < done.countP (fun a => contrib a key) ∧
      (∀ nsx, nsx ∈ u.namespaces ↔
        ∃ a ∈ done, contrib a key = true ∧ a.resource.ns = nsx) ∧
      u.namespaces.Nodup ∧
      (∀ v, v ∈ u.uniqueValues ↔
        ∃ a ∈ done, contrib a key = true ∧ val a key = v) ∧
      u.uniqueValues.Nodup ∧
      ∃ w, w.key = key ∧ u = att w

/-- Per-analysis contribution to the all map: a non-system key of the
resource's annotation map. -/
def contribAll (a : IngressAnalysis) (key : String) : Bool :=
  gAll key && containsKeyA a.resource.annotations key

/-- Per-analysis contribution to the nginx map: a non-system nginx-prefixed
key of the resource's annotation map. -/
def contribNginx (a : IngressAnalysis) (key : String) : Bool :=
  gNginx key && containsKeyA a.resource.annotations key

/-- Per-analysis contribution to the unknown map: a key listed in the
analysis's unknown annotations. -/
def contribUnknown (a : IngressAnalysis) (key : String) : Bool :=
  a.unknownAnnotations.contains key

/-- The value an analysis contributes for a key: the annotation value. -/
def valOf (a : IngressAnalysis) (key : String) : String :=
  lookupValue a.resource.annotations key

/-- The all-map part of folding one analysis. -/
def stepAll (m : UsageMap) (a : IngressAnalysis) : UsageMap :=
  a.resource.annotations.foldl (guardedStep gAll id a.resource.ns) m

/-- The nginx-map part of folding one analysis. -/
def stepNginx (m : UsageMap) (a : IngressAnalysis) : UsageMap :=
  a.resource.annotations.foldl (guardedStep gNginx attachRuleInfo a.resource.ns) m

/-- The unknown-map part of folding one analysis. -/
def stepUnknown (m : UsageMap) (a : IngressAnalysis) : UsageMap :=
  a.unknownAnnotations.foldl
    (processUnknownStep a.resource.annotations a.resource.ns) m

/-- Two analyses describing the same resource, with the annotation map and
the unknown list presented in possibly different iteration orders. -/
def AnalysisEquiv (a b : IngressAnalysis) : Prop :=
  a.resource.name = b.resource.name ∧
  a.resource.ns = b.resource.ns ∧
  a.resource.annotations.Perm b.resource.annotations ∧
  a.unknownAnnotations.Perm b.unknownAnnotations

/-- Two analysis lists presenting the same resource set: element-wise
equivalent up to a permutation of the list. -/
def SameResourceSet (l1 l2 : List IngressAnalysis) : Prop :=
  ∃ mid, List.Forall₂ AnalysisEquiv l1 mid ∧ mid.Perm l2

/-- The rule metadata the nginx map attaches for a key (the rule fields when
the key has a rule, the UNKNOWN marker and generic text otherwise). -/
def ruleMetaOfKey (key : String) : RiskLevel × String × String × String :=
  match GetRuleByPattern key with
  | some rule => (rule.riskLevel, rule.description, rule.migrationNote, rule.sourceURL)
  | none =>
    ("UNKNOWN",
     "Unknown nginx annotation - not in current knowledge base",
     "This annotation is not documented in our migration rules. Please research Gateway API equivalent or file an issue.",
     "")

/-- Total usage count accumulated for a namespace under one risk level:
the sum of the usage counts of the nginx records that carry the namespace
and that risk. -/
def sumUsage (m : UsageMap) (nsName : String) (risk : RiskLevel) : Nat :=
  ((m.filter (fun u => u.namespaces.contains nsName && u.risk == risk)).map
    (fun u => u.usageCount)).sum

/-- Read the accumulated count of the namespace scorer's nested map. -/
def nsRiskLookup (outer : List (String × List (RiskLevel × Nat)))
    (nsName : String) (risk : RiskLevel) : Nat :=
  match findByKey Prod.fst outer nsName with
  | some p => lookupRiskCount p.2 risk
  | none => 0

/-- The per-namespace labelling decision as an optional entry. -/
def nsLabelFn (p : String × List (RiskLevel × Nat)) : Option (String × String) :=
  let total := lookupRiskCount p.2 RiskAuto + lookupRiskCount p.2 RiskManual
    + lookupRiskCount p.2 RiskHigh
  if total == 0 then none
  else
    let highRiskPercent : ℚ := (lookupRiskCount p.2 RiskHigh : ℚ) / (total : ℚ) * 100
    if highRiskPercent > 50 then
      some (p.1, "HIGH complexity (many high-risk annotations)")
    else if highRiskPercent > 20 then
      some (p.1, "MEDIUM complexity (some high-risk annotations)")
    else
      some (p.1, "LOW complexity (mostly auto-migratable)")

/-- Witness inventory for the namespace scorer: one AUTO and one HIGH_RISK
record, each used once in namespace prod, so the high-risk share is exactly
one half. -/
def wC6Inv : AnnotationInventory :=
  { allAnnotations := []
    nginxAnnotations :=
      [ { key := "nginx.ingress.kubernetes.io/ssl-redirect"
          uniqueValues := []
          usageCount := 1
          namespaces := ["prod"]
          valueExamples := []
          risk := RiskAuto
          description := ""
          migrationNote := ""
          sourceURL := "" },
        { key := "nginx.ingress.kubernetes.io/server-snippet"
          uniqueValues := []
          usageCount := 1
          namespaces := ["prod"]
          valueExamples := []
          risk := RiskHigh
          description := ""
          migrationNote := ""
          sourceURL := "" } ]
    unknownAnnotations := []
    summary :=
      { totalUniqueAnnotations := 0
        nginxAnnotationsCount := 0
        unknownAnnotationsCount := 0
        mostUsed := ""
        mostComplexNamespace := "" } }

def wC6Ns : String := "prod"

/-- Witness input for the unknown-map metadata invariant: one resource
carrying a ruleless nginx-prefixed annotation, so that the built inventory
has a nonempty unknown map. -/
def wC10Analyses : List IngressAnalysis :=
  [analyzeIngress
    { name := "w10"
      ns := "ns10"
      className := ""
      annotations := [ ("nginx.ingress.kubernetes.io/another-unknown", "v")] }]

theorem highestRiskLoop_eq (rs : List AnnotationRule) : ∀ acc : RiskLevel,
    acc = RiskAuto ∨ acc = RiskManual →
    highestRiskLoop rs acc =
      if rs.any (fun r => r.riskLevel == RiskHigh) then RiskHigh
      else if rs.any (fun r => r.riskLevel == RiskManual) then RiskManual
      else acc := by
  induction rs with
  | nil => intro acc _; simp [highestRiskLoop]
  | cons r rest ih =>
    intro acc hacc
    by_cases hh : r.riskLevel = RiskHigh
    · have hb1 : (r.riskLevel == RiskHigh) = true := by simp [hh]
      simp [highestRiskLoop, hb1]
    · have hb1 : (r.riskLevel == RiskHigh) = false := by simp [hh]
      by_cases hm : r.riskLevel = RiskManual
      · have hb2 : (r.riskLevel == RiskManual) = true := by simp [hm]
        rw [show highestRiskLoop (r :: rest) acc = highestRiskLoop rest RiskManual from by
          simp [highestRiskLoop, hb1, hb2]]
        rw [ih RiskManual (Or.inr rfl)]
        rw [show (r :: rest).any (fun x => x.riskLevel == RiskHigh) =
            rest.any (fun x => x.riskLevel == RiskHigh) from by simp [hb1]]
        rw [show (r :: rest).any (fun x => x.riskLevel == RiskManual) = true from by
          simp [hb2]]
        by_cases h1 : rest.any (fun x => x.riskLevel == RiskHigh) = true
        · simp [h1]
        · simp [h1, ite_self]
      · have hb2 : (r.riskLevel == RiskManual) = false := by simp [hm]
        rw [show highestRiskLoop (r :: rest) acc = highestRiskLoop rest acc from by
          simp [highestRiskLoop, hb1, hb2]]
        rw [ih acc hacc]
        simp [hb1, hb2]

theorem getHighestRiskLevel_eq (rules : List AnnotationRule) :
    GetHighestRiskLevel rules =
      if rules.any (fun r => r.riskLevel == RiskHigh) then RiskHigh
      else if rules.any (fun r => r.riskLevel == RiskManual) then RiskManual
      else RiskAuto := by
  cases rules with
  | nil => simp [GetHighestRiskLevel]
  | cons r rest =>
    unfold GetHighestRiskLevel
    rw [highestRiskLoop_eq (r :: rest) RiskAuto (Or.inl rfl)]
    simp

/-- Claim C1: the risk resolver returns HIGH_RISK iff some rule in the list
has risk HIGH_RISK; otherwise MANUAL iff some rule has MANUAL and none
HIGH_RISK; otherwise AUTO (equivalently: AUTO iff no HIGH_RISK and no
MANUAL rule is present); the empty list resolves to AUTO. -/
theorem getHighestRiskLevel_spec (rules : List AnnotationRule) :
    (GetHighestRiskLevel rules = RiskHigh ↔ ∃ r ∈ rules, r.riskLevel = RiskHigh) ∧
    (GetHighestRiskLevel rules = RiskManual ↔
      ((∃ r ∈ rules, r.riskLevel = RiskManual) ∧ ¬ ∃ r ∈ rules, r.riskLevel = RiskHigh)) ∧
    (GetHighestRiskLevel rules = RiskAuto ↔
      ((¬ ∃ r ∈ rules, r.riskLevel = RiskHigh) ∧ ¬ ∃ r ∈ rules, r.riskLevel = RiskManual)) ∧
    GetHighestRiskLevel [] = RiskAuto := by
  have hex : ∀ lvl : RiskLevel,
      rules.any (fun r => r.riskLevel == lvl) = true ↔ ∃ r ∈ rules, r.riskLevel = lvl := by
    intro lvl
    simp [List.any_eq_true, beq_iff_eq]
  by_cases e1 : ∃ r ∈ rules, r.riskLevel = RiskHigh
  · have hval : GetHighestRiskLevel rules = RiskHigh := by
      rw [getHighestRiskLevel_eq]; simp [(hex RiskHigh).mpr e1]
    refine ⟨by simp [hval, e1], ?_, ?_, by simp [GetHighestRiskLevel]⟩
    · rw [hval]
      constructor
      · intro h; exact absurd h (by decide)
      · rintro ⟨-, hno⟩; exact absurd e1 hno
    · rw [hval]
      constructor
      · intro h; exact absurd h (by decide)
      · rintro ⟨hno, -⟩; exact absurd e1 hno
  · have b1 : rules.any (fun r => r.riskLevel == RiskHigh) = false := by
      rw [← Bool.not_eq_true]; exact fun hb => e1 ((hex RiskHigh).mp hb)
    by_cases e2 : ∃ r ∈ rules, r.riskLevel = RiskManual
    · have hval : GetHighestRiskLevel rules = RiskManual := by
        rw [getHighestRiskLevel_eq]; simp [b1, (hex RiskManual).mpr e2]
      refine ⟨?_, by simp [hval, e1, e2], ?_, by simp [GetHighestRiskLevel]⟩
      · rw [hval]
        constructor
        · intro h; exact absurd h (by decide)
        · intro he; exact absurd he e1
      · rw [hval]
        constructor
        · intro h; exact absurd h (by decide)
        · rintro ⟨-, hno⟩; exact absurd e2 hno
    · have b2 : rules.any (fun r => r.riskLevel == RiskManual) = false := by
        rw [← Bool.not_eq_true]; exact fun hb => e2 ((hex RiskManual).mp hb)
      have hval : GetHighestRiskLevel rules = RiskAuto := by
        rw [getHighestRiskLevel_eq]; simp [b1, b2]
      refine ⟨?_, ?_, by simp [hval, e1, e2], by simp [GetHighestRiskLevel]⟩
      · rw [hval]
        constructor
        · intro h; exact absurd h (by decide)
        · intro he; exact absurd he e1
      · rw [hval]
        constructor
        · intro h; exact absurd h (by decide)
        · rintro ⟨he, -⟩; exact absurd he e2

theorem firstMatchingRule_eq_find (rs : List AnnotationRule) (key : String) :
    firstMatchingRule rs key = rs.find? (fun r => regexpMatch r.pattern key) := by
  induction rs with
  | nil => rfl
  | cons r rest ih =>
    by_cases h : regexpMatch r.pattern key = true
    · simp [firstMatchingRule, h, List.find?_cons_of_pos]
    · rw [show firstMatchingRule (r :: rest) key = firstMatchingRule rest key from by
        simp [firstMatchingRule, h]]
      rw [List.find?_cons_of_neg _ (by simp [h]), ih]

theorem firstMatchingRule_spec (rs : List AnnotationRule) (key : String) :
    (∀ rule, firstMatchingRule rs key = some rule ↔
      ∃ l1 l2, rs = l1 ++ rule :: l2 ∧ regexpMatch rule.pattern key = true ∧
        ∀ r ∈ l1, regexpMatch r.pattern key = false) ∧
    (firstMatchingRule rs key = none ↔ ∀ r ∈ rs, regexpMatch r.pattern key = false) := by
  induction rs with
  | nil =>
    constructor
    · intro rule
      constructor
      · intro h; exact absurd h (by simp [firstMatchingRule])
      · rintro ⟨l1, l2, h, -, -⟩
        cases l1 <;> simp at h
    · simp [firstMatchingRule]
  | cons r rest ih =>
    by_cases h : regexpMatch r.pattern key = true
    · have hval : firstMatchingRule (r :: rest) key = some r := by
        simp [firstMatchingRule, h]
      constructor
      · intro rule
        rw [hval]
        constructor
        · intro he
          refine ⟨[], rest, ?_, ?_, by intro x hx; exact absurd hx (List.not_mem_nil x)⟩
          · simpa using (Option.some_injective _ he).symm ▸ rfl
          · have : rule = r := (Option.some_injective _ he).symm
            rw [this]; exact h
        · rintro ⟨l1, l2, hdec, hm, hfirst⟩
          cases l1 with
          | nil => simp at hdec; rw [hdec.1]
          | cons a l1' =>
            have ha : a = r := by simp at hdec; exact hdec.1.symm
            have : regexpMatch r.pattern key = false := ha ▸ hfirst a (by simp)
            rw [this] at h; exact absurd h (by simp)
      · rw [hval]
        constructor
        · intro he; exact absurd he (by simp)
        · intro hall
          have := hall r (by simp)
          rw [this] at h; exact absurd h (by simp)
    · have hval : firstMatchingRule (r :: rest) key = firstMatchingRule rest key := by
        simp [firstMatchingRule, h]
      have hb : regexpMatch r.pattern key = false := by
        cases hx : regexpMatch r.pattern key
        · rfl
        · exact absurd hx h
      constructor
      · intro rule
        rw [hval, (ih.1 rule)]
        constructor
        · rintro ⟨l1, l2, hdec, hm, hfirst⟩
          refine ⟨r :: l1, l2, by rw [hdec]; rfl, hm, ?_⟩
          intro x hx
          rcases List.mem_cons.mp hx with hx | hx
          · rw [hx]; exact hb
          · exact hfirst x hx
        · rintro ⟨l1, l2, hdec, hm, hfirst⟩
          cases l1 with
          | nil =>
            simp at hdec
            rw [hdec.1] at hb
            rw [hb] at hm; exact absurd hm (by simp)
          | cons a l1' =>
            simp at hdec
            exact ⟨l1', l2, hdec.2, hm, fun x hx => hfirst x (by simp [hx])⟩
      · rw [hval, ih.2]
        constructor
        · intro hall x hx
          rcases List.mem_cons.mp hx with hx | hx
          · rw [hx]; exact hb
          · exact hall x hx
        · intro hall x hx
          exact hall x (by simp [hx])

theorem matchAnnotations_eq_filterMap (annotations : List (String × String)) :
    MatchAnnotations annotations =
      annotations.filterMap (fun kv => firstMatchingRule GetAnnotationRules kv.1) := by
  have hgen : ∀ (l : List (String × String)) (acc : List AnnotationRule),
      l.foldl (fun acc kv =>
        match firstMatchingRule GetAnnotationRules kv.1 with
        | some rule => acc ++ [rule]
        | none => acc) acc
        = acc ++ l.filterMap (fun kv => firstMatchingRule GetAnnotationRules kv.1) := by
    intro l
    induction l with
    | nil => intro acc; simp
    | cons kv rest ih =>
      intro acc
      cases h : firstMatchingRule GetAnnotationRules kv.1 with
      | none => simp [List.foldl_cons, h, List.filterMap_cons, ih]
      | some rule => simp [List.foldl_cons, h, List.filterMap_cons, ih]
  simpa using hgen annotations []

/-- Claim C2 counterexample: the matcher collects the SSL Redirect rule for the
key "anginx.ingress.kubernetes.io/ssl-redirect" (the rule pattern occurs as an
unanchored regular-expression match inside the key), although no rule of the
table has a pattern literally equal to that key, so collection is not governed
by exact pattern equality. -/
theorem matchAnnotations_exact_equality_counterexample :
    (MatchAnnotations [ ("anginx.ingress.kubernetes.io/ssl-redirect", "true")]).map
        (fun r => r.pattern) = [ "nginx.ingress.kubernetes.io/ssl-redirect"] ∧
    GetAnnotationRules.all
      (fun r => !(r.pattern == "anginx.ingress.kubernetes.io/ssl-redirect")) = true ∧
    GetRuleByPattern exactLookupProbeKey = none := by
  decide

/-- Claim C2 (amended): for every annotation map, the matcher collects a rule
for a key k iff the rule table contains a rule whose pattern, applied as an
unanchored Go regular expression (dot matching any character), matches k; the
first such rule in table order is taken and at most one rule is collected per
key.  (Literal pattern equality implies such a match but not conversely.) -/
theorem matchAnnotations_regex_spec (annotations : List (String × String)) :
    MatchAnnotations annotations =
      annotations.filterMap (fun kv => firstMatchingRule GetAnnotationRules kv.1) ∧
    (MatchAnnotations annotations).length ≤ annotations.length ∧
    (∀ key rule, firstMatchingRule GetAnnotationRules key = some rule ↔
      ∃ l1 l2, GetAnnotationRules = l1 ++ rule :: l2 ∧
        regexpMatch rule.pattern key = true ∧
        ∀ r ∈ l1, regexpMatch r.pattern key = false) ∧
    (∀ key, firstMatchingRule GetAnnotationRules key = none ↔
      ∀ r ∈ GetAnnotationRules, regexpMatch r.pattern key = false) := by
  refine ⟨matchAnnotations_eq_filterMap annotations, ?_, ?_, ?_⟩
  · rw [matchAnnotations_eq_filterMap annotations]
    exact List.length_filterMap_le _ _
  · intro key rule
    exact (firstMatchingRule_spec GetAnnotationRules key).1 rule
  · intro key
    exact (firstMatchingRule_spec GetAnnotationRules key).2

section AssocMapLemmas

variable {β : Type} (keyOf : β → String)

theorem findByKey_eq_none (m : List β) (key : String) :
    findByKey keyOf m key = none ↔ ∀ x ∈ m, keyOf x ≠ key := by
  simp [findByKey, List.find?_eq_none]

theorem mem_keysOf_iff (m : List β) (key : String) :
    key ∈ keysOf keyOf m ↔ ∃ x ∈ m, keyOf x = key := by
  simp [keysOf]

theorem findByKey_key (m : List β) (key : String) (x : β)
    (h : findByKey keyOf m key = some x) : keyOf x = key ∧ x ∈ m := by
  have hp := List.find?_some h
  exact ⟨by simpa using hp, List.mem_of_find?_eq_some h⟩

theorem findByKey_isSome_iff (m : List β) (key : String) :
    (findByKey keyOf m key).isSome = true ↔ key ∈ keysOf keyOf m := by
  rw [mem_keysOf_iff]
  cases h : findByKey keyOf m key with
  | none =>
    rw [findByKey_eq_none] at h
    constructor
    · intro hc; simp at hc
    · rintro ⟨x, hx, he⟩; exact absurd he (h x hx)
  | some x =>
    constructor
    · intro _
      obtain ⟨hk, hm⟩ := findByKey_key keyOf m key x h
      exact ⟨x, hm, hk⟩
    · intro _; rfl

theorem keysOf_updateByKey (m : List β) (key : String) (create : β) (f : β → β)
    (hf : ∀ x, keyOf x = key → keyOf (f x) = key) (hc : keyOf create = key) :
    keysOf keyOf (updateByKey keyOf m key create f) =
      if key ∈ keysOf keyOf m then keysOf keyOf m else keysOf keyOf m ++ [key] := by
  unfold updateByKey
  cases h : findByKey keyOf m key with
  | none =>
    have hnot : ¬ key ∈ List.map keyOf m := by
      intro hmem
      rcases List.mem_map.mp hmem with ⟨x, hx, he⟩
      exact ((findByKey_eq_none keyOf m key).mp h) x hx he
    simp only [keysOf, List.map_append, List.map_cons, List.map_nil, hf create hc]
    rw [if_neg hnot]
  | some y =>
    have hmem : key ∈ List.map keyOf m := by
      obtain ⟨hk, hm⟩ := findByKey_key keyOf m key y h
      exact List.mem_map.mpr ⟨y, hm, hk⟩
    simp only [keysOf, List.map_map]
    rw [if_pos hmem]
    apply List.map_congr_left
    intro x hx
    by_cases hxk : keyOf x = key
    · simp [Function.comp, hxk, hf x hxk]
    · simp [Function.comp, hxk]

theorem nodup_keysOf_updateByKey (m : List β) (key : String) (create : β) (f : β → β)
    (hf : ∀ x, keyOf x = key → keyOf (f x) = key) (hc : keyOf create = key)
    (hn : (keysOf keyOf m).Nodup) :
    (keysOf keyOf (updateByKey keyOf m key create f)).Nodup := by
  rw [keysOf_updateByKey keyOf m key create f hf hc]
  by_cases hmem : key ∈ keysOf keyOf m
  · simpa [hmem] using hn
  · simp only [hmem, if_false]
    rw [List.nodup_append]
    exact ⟨hn, List.nodup_singleton key, by simpa using hmem⟩

theorem findByKey_updateByKey_same (m : List β) (key : String) (create : β) (f : β → β)
    (hf : ∀ x, keyOf x = key → keyOf (f x) = key) (hc : keyOf create = key) :
    findByKey keyOf (updateByKey keyOf m key create f) key =
      some (f ((findByKey keyOf m key).getD create)) := by
  unfold updateByKey
  cases h : findByKey keyOf m key with
  | none =>
    simp only [Option.getD_none]
    unfold findByKey
    rw [List.find?_append]
    rw [findByKey] at h
    rw [h]
    simp [hf create hc, hc]
  | some y =>
    simp only [Option.getD_some]
    obtain ⟨hk, -⟩ := findByKey_key keyOf m key y h
    unfold findByKey
    rw [List.find?_map]
    have hpg : (fun x => keyOf (if keyOf x == key then f x else x) == key) =
        (fun x => keyOf x == key) := by
      funext x
      by_cases hxk : keyOf x = key
      · simp [hxk, hf x hxk]
      · simp [hxk]
    show (m.find? fun x => keyOf (if keyOf x == key then f x else x) == key).map _ = _
    rw [hpg]
    rw [findByKey] at h
    rw [h]
    simp [hk]

theorem findByKey_updateByKey_other (m : List β) (key key2 : String) (create : β)
    (f : β → β) (hf : ∀ x, keyOf x = key → keyOf (f x) = key) (hc : keyOf create = key)
    (hne : key2 ≠ key) :
    findByKey keyOf (updateByKey keyOf m key create f) key2 =
      findByKey keyOf m key2 := by
  unfold updateByKey
  cases h : findByKey keyOf m key with
  | none =>
    unfold findByKey
    rw [List.find?_append]
    have hsingle : List.find? (fun x => keyOf x == key2) [f create] = none := by
      have hfc : keyOf (f create) = key := hf create hc
      simp [hfc, Ne.symm hne]
    rw [hsingle]
    cases hm : List.find? (fun x => keyOf x == key2) m <;> simp
  | some y =>
    unfold findByKey
    rw [List.find?_map]
    have hpg : ((fun x => keyOf x == key2) ∘ fun x => if keyOf x == key then f x else x) =
        (fun x => keyOf x == key2) := by
      funext x
      by_cases hxk : keyOf x = key
      · have hfx : keyOf (f x) = key := hf x hxk
        simp [Function.comp, hxk, hfx, Ne.symm hne]
      · simp [Function.comp, hxk]
    rw [hpg]
    cases hm : m.find? (fun x => keyOf x == key2) with
    | none => simp
    | some z =>
      have hz : keyOf z = key2 := by simpa using List.find?_some hm
      have hzk : (keyOf z == key) = false := by simp [hz, hne]
      show Option.map (fun x => if keyOf x == key then f x else x) (some z) = some z
      rw [Option.map_some']
      rw [hzk]
      simp

theorem mem_updateByKey (m : List β) (key : String) (create : β) (f : β → β) (y : β)
    (hy : y ∈ updateByKey keyOf m key create f) :
    (∃ x, x ∈ m ∧ keyOf x = key ∧ y = f x) ∨
    (y ∈ m ∧ keyOf y ≠ key) ∨
    (findByKey keyOf m key = none ∧ y = f create) := by
  unfold updateByKey at hy
  cases h : findByKey keyOf m key with
  | none =>
    rw [h] at hy
    rcases List.mem_append.mp hy with hm | hs
    · right; left
      refine ⟨hm, ?_⟩
      exact (findByKey_eq_none keyOf m key).mp h y hm
    · right; right
      exact ⟨rfl, by simpa using hs⟩
  | some z =>
    rw [h] at hy
    rcases List.mem_map.mp hy with ⟨x, hx, he⟩
    by_cases hxk : keyOf x = key
    · left
      exact ⟨x, hx, hxk, by simp [hxk] at he; exact he.symm⟩
    · right; left
      have : y = x := by simp [hxk] at he; exact he.symm
      rw [this]
      exact ⟨hx, hxk⟩

end AssocMapLemmas

@[simp] theorem analyzeIngress_resource (r : IngressResource) :
    (analyzeIngress r).resource = r := rfl

@[simp] theorem analyzeIngress_riskLevel (r : IngressResource) :
    (analyzeIngress r).riskLevel = GetHighestRiskLevel (MatchAnnotations r.annotations) := rfl

@[simp] theorem analyzeIngress_unknowns (r : IngressResource) :
    (analyzeIngress r).unknownAnnotations = GetUnknownNginxAnnotations r.annotations := rfl

theorem getHighestRiskLevel_cases (rules : List AnnotationRule) :
    GetHighestRiskLevel rules = RiskAuto ∨ GetHighestRiskLevel rules = RiskManual ∨
    GetHighestRiskLevel rules = RiskHigh := by
  rw [getHighestRiskLevel_eq]
  by_cases h1 : rules.any (fun r => r.riskLevel == RiskHigh) = true
  · right; right; simp [h1]
  · by_cases h2 : rules.any (fun r => r.riskLevel == RiskManual) = true
    · right; left; simp [h1, h2]
    · left; simp [h1, h2]

theorem summaryStep_counts (s : AnalysisSummary) (a : IngressAnalysis)
    (ha : a.riskLevel = RiskAuto ∨ a.riskLevel = RiskManual ∨ a.riskLevel = RiskHigh) :
    (summaryStep s a).autoCount + (summaryStep s a).manualCount
        + (summaryStep s a).highRiskCount
      = s.autoCount + s.manualCount + s.highRiskCount + 1 ∧
    (summaryStep s a).totalIngresses = s.totalIngresses := by
  rcases ha with h | h | h
  · have hb : (a.riskLevel == RiskAuto) = true := by rw [h]; decide
    refine ⟨?_, ?_⟩ <;> simp [summaryStep, hb] <;> omega
  · have hb1 : (a.riskLevel == RiskAuto) = false := by rw [h]; decide
    have hb2 : (a.riskLevel == RiskManual) = true := by rw [h]; decide
    refine ⟨?_, ?_⟩ <;> simp [summaryStep, hb1, hb2] <;> omega
  · have hb1 : (a.riskLevel == RiskAuto) = false := by rw [h]; decide
    have hb2 : (a.riskLevel == RiskManual) = false := by rw [h]; decide
    have hb3 : (a.riskLevel == RiskHigh) = true := by rw [h]; decide
    refine ⟨?_, ?_⟩ <;> simp [summaryStep, hb1, hb2, hb3] <;> omega

theorem foldl_summaryStep_counts (analyses : List IngressAnalysis) :
    ∀ s : AnalysisSummary,
    (∀ a ∈ analyses,
      a.riskLevel = RiskAuto ∨ a.riskLevel = RiskManual ∨ a.riskLevel = RiskHigh) →
    (analyses.foldl summaryStep s).autoCount + (analyses.foldl summaryStep s).manualCount
        + (analyses.foldl summaryStep s).highRiskCount
      = s.autoCount + s.manualCount + s.highRiskCount + analyses.length ∧
    (analyses.foldl summaryStep s).totalIngresses = s.totalIngresses := by
  induction analyses with
  | nil => intro s _; simp
  | cons a rest ih =>
    intro s hall
    have hstep := summaryStep_counts s a (hall a (by simp))
    have hrest := ih (summaryStep s a) (fun x hx => hall x (by simp [hx]))
    simp only [List.foldl_cons, List.length_cons]
    refine ⟨?_, ?_⟩
    · rw [hrest.1, hstep.1]; omega
    · rw [hrest.2, hstep.2]

theorem countNs_append_same (processed : List IngressAnalysis) (a : IngressAnalysis)
    (nsName : String) (h : a.resource.ns = nsName) :
    countNs (processed ++ [a]) nsName = countNs processed nsName + 1 := by
  unfold countNs
  rw [List.filter_append, List.length_append]
  simp [h]

theorem countNs_append_other (processed : List IngressAnalysis) (a : IngressAnalysis)
    (nsName : String) (h : a.resource.ns ≠ nsName) :
    countNs (processed ++ [a]) nsName = countNs processed nsName := by
  unfold countNs
  rw [List.filter_append, List.length_append]
  simp [h]

theorem summaryStep_byNamespace (s : AnalysisSummary) (a : IngressAnalysis) :
    (summaryStep s a).byNamespace =
      setNsSummary s.byNamespace a.resource.ns
        (let old := getNsSummary s.byNamespace a.resource.ns
         if a.riskLevel == RiskAuto then { old with autoCount := old.autoCount + 1 }
         else if a.riskLevel == RiskManual then { old with manualCount := old.manualCount + 1 }
         else if a.riskLevel == RiskHigh then { old with highRiskCount := old.highRiskCount + 1 }
         else old) := by
  by_cases h1 : (a.riskLevel == RiskAuto) = true
  · simp [summaryStep, h1]
  · by_cases h2 : (a.riskLevel == RiskManual) = true
    · simp [summaryStep, h1, h2]
    · by_cases h3 : (a.riskLevel == RiskHigh) = true
      · simp [summaryStep, h1, h2, h3]
      · simp [summaryStep, h1, h2, h3]

theorem sum3_bump (old : NamespaceSummary) (a : IngressAnalysis)
    (ha : a.riskLevel = RiskAuto ∨ a.riskLevel = RiskManual ∨ a.riskLevel = RiskHigh) :
    sum3 (if a.riskLevel == RiskAuto then { old with autoCount := old.autoCount + 1 }
      else if a.riskLevel == RiskManual then { old with manualCount := old.manualCount + 1 }
      else if a.riskLevel == RiskHigh then { old with highRiskCount := old.highRiskCount + 1 }
      else old) = sum3 old + 1 := by
  rcases ha with h | h | h
  · have hb : (a.riskLevel == RiskAuto) = true := by rw [h]; decide
    simp [hb, sum3]; omega
  · have hb1 : (a.riskLevel == RiskAuto) = false := by rw [h]; decide
    have hb2 : (a.riskLevel == RiskManual) = true := by rw [h]; decide
    simp [hb1, hb2, sum3]; omega
  · have hb1 : (a.riskLevel == RiskAuto) = false := by rw [h]; decide
    have hb2 : (a.riskLevel == RiskManual) = false := by rw [h]; decide
    have hb3 : (a.riskLevel == RiskHigh) = true := by rw [h]; decide
    simp [hb1, hb2, hb3, sum3]; omega

theorem key_mem_keysOf_updateByKey {β : Type} (keyOf : β → String) (m : List β)
    (key : String) (create : β) (f : β → β)
    (hf : ∀ x, keyOf x = key → keyOf (f x) = key) (hc : keyOf create = key) :
    key ∈ keysOf keyOf (updateByKey keyOf m key create f) := by
  rw [keysOf_updateByKey keyOf m key create f hf hc]
  by_cases hmem : key ∈ keysOf keyOf m
  · simpa [hmem] using hmem
  · simp [hmem]

theorem mem_keysOf_updateByKey_of_mem {β : Type} (keyOf : β → String) (m : List β)
    (key key2 : String) (create : β) (f : β → β)
    (hf : ∀ x, keyOf x = key → keyOf (f x) = key) (hc : keyOf create = key)
    (h2 : key2 ∈ keysOf keyOf m) :
    key2 ∈ keysOf keyOf (updateByKey keyOf m key create f) := by
  rw [keysOf_updateByKey keyOf m key create f hf hc]
  by_cases hmem : key ∈ keysOf keyOf m
  · simpa [hmem] using h2
  · simp [hmem, h2]

theorem summaryStep_ns_inv (processed : List IngressAnalysis) (s : AnalysisSummary)
    (a : IngressAnalysis)
    (ha : a.riskLevel = RiskAuto ∨ a.riskLevel = RiskManual ∨ a.riskLevel = RiskHigh)
    (hinv : SummaryNsInv processed s.byNamespace) :
    SummaryNsInv (processed ++ [a]) (summaryStep s a).byNamespace := by
  obtain ⟨hnodup, hentries, hcover⟩ := hinv
  rw [summaryStep_byNamespace]
  set nsName := a.resource.ns with hns
  set v := (let old := getNsSummary s.byNamespace nsName
    if a.riskLevel == RiskAuto then { old with autoCount := old.autoCount + 1 }
    else if a.riskLevel == RiskManual then { old with manualCount := old.manualCount + 1 }
    else if a.riskLevel == RiskHigh then { old with highRiskCount := old.highRiskCount + 1 }
    else old) with hv
  have hf : ∀ x : String × NamespaceSummary, x.1 = nsName →
      ((fun _ => (nsName, v)) x).1 = nsName := fun x _ => rfl
  have hc : (nsName, v).1 = nsName := rfl
  have hsumv : sum3 v = sum3 (getNsSummary s.byNamespace nsName) + 1 := by
    rw [hv]; exact sum3_bump (getNsSummary s.byNamespace nsName) a ha
  refine ⟨?_, ?_, ?_⟩
  · exact nodup_keysOf_updateByKey Prod.fst s.byNamespace nsName (nsName, v) _ hf hc hnodup
  · intro p hp
    rcases mem_updateByKey Prod.fst s.byNamespace nsName (nsName, v) _ p hp with
      ⟨x, hx, hxk, hpe⟩ | ⟨hm, hne⟩ | ⟨hnone, hpe⟩
    · rcases hfind : findByKey Prod.fst s.byNamespace nsName with - | y
      · exfalso
        exact ((findByKey_eq_none Prod.fst s.byNamespace nsName).mp hfind) x hx hxk
      · have hget : getNsSummary s.byNamespace nsName = y.2 := by
          simp [getNsSummary, hfind]
        obtain ⟨hyk, hym⟩ := findByKey_key Prod.fst s.byNamespace nsName y hfind
        have hysum : sum3 y.2 = countNs processed nsName := by
          have := hentries y hym
          rwa [hyk] at this
        rw [hpe]
        simp only
        rw [hsumv, hget, hysum, countNs_append_same processed a nsName hns.symm]
    · have := hentries p hm
      rw [this]
      exact (countNs_append_other processed a p.1 (fun hcc => hne hcc.symm)).symm
    · have hnomem : nsName ∉ keysOf Prod.fst s.byNamespace := by
        rw [mem_keysOf_iff]
        rintro ⟨x, hx, he⟩
        exact ((findByKey_eq_none Prod.fst s.byNamespace nsName).mp hnone) x hx he
      have hzero : countNs processed nsName = 0 := by
        unfold countNs
        rw [List.length_eq_zero]
        rw [List.filter_eq_nil]
        intro x hx
        intro hxb
        have hxe : x.resource.ns = nsName := by simpa using hxb
        exact hnomem (hxe ▸ hcover x hx)
      have hget : getNsSummary s.byNamespace nsName =
          { autoCount := 0, manualCount := 0, highRiskCount := 0 } := by
        simp [getNsSummary, hnone]
      rw [hpe]
      simp only
      rw [hsumv, hget, countNs_append_same processed a nsName hns.symm, hzero]
      simp [sum3]
  · intro x hx
    rcases List.mem_append.mp hx with hx | hx
    · exact mem_keysOf_updateByKey_of_mem Prod.fst s.byNamespace nsName _ (nsName, v) _
        hf hc (hcover x hx)
    · have : x = a := by simpa using hx
      rw [this, ← hns]
      exact key_mem_keysOf_updateByKey Prod.fst s.byNamespace nsName (nsName, v) _ hf hc

theorem foldl_summaryStep_ns_inv (analyses : List IngressAnalysis) :
    ∀ (processed : List IngressAnalysis) (s : AnalysisSummary),
    (∀ a ∈ analyses,
      a.riskLevel = RiskAuto ∨ a.riskLevel = RiskManual ∨ a.riskLevel = RiskHigh) →
    SummaryNsInv processed s.byNamespace →
    SummaryNsInv (processed ++ analyses) ((analyses.foldl summaryStep s).byNamespace) := by
  induction analyses with
  | nil => intro processed s _ hinv; simpa using hinv
  | cons a rest ih =>
    intro processed s hall hinv
    have hstep := summaryStep_ns_inv processed s a (hall a (by simp)) hinv
    have := ih (processed ++ [a]) (summaryStep s a) (fun x hx => hall x (by simp [hx])) hstep
    simpa [List.append_assoc] using this

/-- Claim C7: for every resource list, the summary generated from the
per-resource analyses satisfies autoCount + manualCount + highRiskCount =
total number of analyses, and in every per-namespace entry the three counts
sum to the number of analyzed resources of that namespace. -/
theorem generateSummary_counts_spec (resources : List IngressResource) :
    (generateSummary (resources.map analyzeIngress)).autoCount
        + (generateSummary (resources.map analyzeIngress)).manualCount
        + (generateSummary (resources.map analyzeIngress)).highRiskCount
      = (generateSummary (resources.map analyzeIngress)).totalIngresses ∧
    (generateSummary (resources.map analyzeIngress)).totalIngresses = resources.length ∧
    ∀ p ∈ (generateSummary (resources.map analyzeIngress)).byNamespace,
      p.2.autoCount + p.2.manualCount + p.2.highRiskCount
        = (resources.filter (fun r => r.ns == p.1)).length := by
  have htri : ∀ a ∈ resources.map analyzeIngress,
      a.riskLevel = RiskAuto ∨ a.riskLevel = RiskManual ∨ a.riskLevel = RiskHigh := by
    intro a ha
    rcases List.mem_map.mp ha with ⟨r, -, he⟩
    rw [← he, analyzeIngress_riskLevel]
    exact getHighestRiskLevel_cases _
  have hglobal := foldl_summaryStep_counts (resources.map analyzeIngress)
    { totalIngresses := (resources.map analyzeIngress).length, autoCount := 0,
      manualCount := 0, highRiskCount := 0, byNamespace := [] } htri
  have hinv0 : SummaryNsInv ([] : List IngressAnalysis)
      (({ totalIngresses := (resources.map analyzeIngress).length, autoCount := 0,
          manualCount := 0, highRiskCount := 0,
          byNamespace := [] } : AnalysisSummary)).byNamespace := by
    refine ⟨by simp [keysOf], by simp, by simp⟩
  have hns := foldl_summaryStep_ns_inv (resources.map analyzeIngress) [] _ htri hinv0
  refine ⟨?_, ?_, ?_⟩
  · unfold generateSummary
    rw [hglobal.1, hglobal.2]
    simp
  · unfold generateSummary
    rw [hglobal.2]
    simp
  · intro p hp
    have hent := hns.2.1 p (by
      unfold generateSummary at hp
      simpa using hp)
    have hcount : countNs (resources.map analyzeIngress) p.1
        = (resources.filter (fun r => r.ns == p.1)).length := by
      unfold countNs
      rw [List.filter_map, List.length_map]
      rfl
    rw [← hcount]
    have : sum3 p.2 = countNs ([] ++ resources.map analyzeIngress) p.1 := hent
    simpa [sum3] using this

/-- Claim C4 counterexample: building the inventory from one analyzed
resource carrying the ruleless nginx annotation
"nginx.ingress.kubernetes.io/custom-unknown" puts that key into the unknown
map AND into the known (nginx) map (where it is flagged UNKNOWN), so the two
key sets are not mutually exclusive. -/
theorem inventory_exclusivity_counterexample :
    "nginx.ingress.kubernetes.io/custom-unknown" ∈ keysOf AnnotationUsage.key
      (BuildAnnotationInventory [analyzeIngress
        { name := "r1", ns := "prod", className := "",
          annotations := [ ("nginx.ingress.kubernetes.io/custom-unknown", "v")] }]).unknownAnnotations ∧
    "nginx.ingress.kubernetes.io/custom-unknown" ∈ keysOf AnnotationUsage.key
      (BuildAnnotationInventory [analyzeIngress
        { name := "r1", ns := "prod", className := "",
          annotations := [ ("nginx.ingress.kubernetes.io/custom-unknown", "v")] }]).nginxAnnotations := by
  decide

/-- Claim C5 counterexample: two tied HIGH_RISK records (usage count 1 each)
come out of GetMostCriticalAnnotations in candidate iteration order
(server-snippet before configuration-snippet), which is strictly descending
by key, not ascending: ties are not broken by ascending key. -/
theorem criticality_tiebreak_counterexample :
    ((GetMostCriticalAnnotations (BuildAnnotationInventory
        [analyzeIngress
          { name := "s1", ns := "prod", className := "x",
            annotations := [ ("nginx.ingress.kubernetes.io/server-snippet", "c1")] },
         analyzeIngress
          { name := "s2", ns := "prod", className := "x",
            annotations := [ ("nginx.ingress.kubernetes.io/configuration-snippet", "c2")] }]) 10).1.map
      (fun u => (u.key, u.usageCount)))
      = [ ("nginx.ingress.kubernetes.io/server-snippet", 1),
          ("nginx.ingress.kubernetes.io/configuration-snippet", 1)] ∧
    strLexLt confSnippetKey serverSnippetKey = true := by
  refine ⟨by decide, by decide⟩

/-- Claim C8 counterexample: the same resource with its two equally used
annotation keys presented in the two possible map iteration orders yields
different MostUsedAnnotation values in the inventory summary, so the built
inventories are not structurally equal. -/
theorem inventory_iteration_order_counterexample :
    ([ ("aaa", "v"), ("bbb", "v")] : List (String × String)).Perm
      [ ("bbb", "v"), ("aaa", "v")] ∧
    (BuildAnnotationInventory [analyzeIngress
      { name := "a", ns := "n1", className := "x",
        annotations := [ ("aaa", "v"), ("bbb", "v")] }]).summary.mostUsed = "aaa" ∧
    (BuildAnnotationInventory [analyzeIngress
      { name := "a", ns := "n1", className := "x",
        annotations := [ ("bbb", "v"), ("aaa", "v")] }]).summary.mostUsed = "bbb" := by
  refine ⟨by decide, by decide, by decide⟩

/-- Claim C9 counterexample: calling GetMostCriticalAnnotations overwrites
the risk level stored in every unknown-map record (empty string after
construction) with "UNKNOWN", so the inventory is not left unchanged. -/
theorem getMostCritical_mutation_counterexample :
    (BuildAnnotationInventory [analyzeIngress
      { name := "r1", ns := "prod", className := "",
        annotations := [ ("nginx.ingress.kubernetes.io/custom-unknown", "v")] }]).unknownAnnotations.map
      (fun u => u.risk) = [ ""] ∧
    ((GetMostCriticalAnnotations (BuildAnnotationInventory [analyzeIngress
      { name := "r1", ns := "prod", className := "",
        annotations := [ ("nginx.ingress.kubernetes.io/custom-unknown", "v")] }]) 5).2).unknownAnnotations.map
      (fun u => u.risk) = [ "UNKNOWN"] ∧
    (GetMostCriticalAnnotations (BuildAnnotationInventory [analyzeIngress
      { name := "r1", ns := "prod", className := "",
        annotations := [ ("nginx.ingress.kubernetes.io/custom-unknown", "v")] }]) 5).2
      ≠ BuildAnnotationInventory [analyzeIngress
      { name := "r1", ns := "prod", className := "",
        annotations := [ ("nginx.ingress.kubernetes.io/custom-unknown", "v")] }] := by
  refine ⟨by decide, by decide, by decide⟩

theorem forall_mem_updateByKey {β : Type} (keyOf : β → String) (m : List β)
    (key : String) (create : β) (f : β → β) (P : β → Prop)
    (hm : ∀ x ∈ m, P x) (hf : ∀ x, P x → P (f x)) (hcreate : P (f create)) :
    ∀ y ∈ updateByKey keyOf m key create f, P y := by
  intro y hy
  rcases mem_updateByKey keyOf m key create f y hy with ⟨x, hx, -, he⟩ | ⟨hym, -⟩ | ⟨-, he⟩
  · rw [he]; exact hf x (hm x hx)
  · exact hm y hym
  · rw [he]; exact hcreate

theorem metaClear_updateUsage (u : AnnotationUsage) (value nsName : String)
    (h : MetaClear u) : MetaClear (updateUsage u value nsName) := by
  simpa [MetaClear, updateUsage] using h

theorem metaClear_emptyUpdate (key value nsName : String) :
    MetaClear (updateUsage (emptyUsage key) value nsName) := by
  simp [MetaClear, updateUsage, emptyUsage]

theorem processUnknown_fold_meta (keys : List String) (ann : List (String × String))
    (nsName : String) :
    ∀ m : UsageMap, (∀ u ∈ m, MetaClear u) →
    ∀ u ∈ keys.foldl (processUnknownStep ann nsName) m, MetaClear u := by
  induction keys with
  | nil => intro m hm; simpa using hm
  | cons k rest ih =>
    intro m hm
    simp only [List.foldl_cons]
    apply ih
    exact forall_mem_updateByKey AnnotationUsage.key m k (emptyUsage k) _ MetaClear hm
      (fun x hx => metaClear_updateUsage x _ _ hx)
      (metaClear_emptyUpdate k _ _)

theorem foldl_buildStep_unknown_meta (analyses : List IngressAnalysis) :
    ∀ maps : UsageMap × UsageMap × UsageMap, (∀ u ∈ maps.2.2, MetaClear u) →
    ∀ u ∈ (analyses.foldl buildStep maps).2.2, MetaClear u := by
  induction analyses with
  | nil => intro maps hm; simpa using hm
  | cons a rest ih =>
    intro maps hm
    simp only [List.foldl_cons]
    apply ih
    show ∀ u ∈ (buildStep maps a).2.2, MetaClear u
    intro u hu
    have he : (buildStep maps a).2.2 = a.unknownAnnotations.foldl
        (processUnknownStep a.resource.annotations a.resource.ns) maps.2.2 := rfl
    rw [he] at hu
    exact processUnknown_fold_meta a.unknownAnnotations _ _ maps.2.2 hm u hu

/-- Claim C10: immediately after BuildAnnotationInventory returns, every
record of the unknown map still has the Go zero values in its metadata
fields: empty risk level, description, migration note and source URL (the
UNKNOWN marker and the generic unknown-annotation metadata go only to
records of the known (nginx) map). -/
theorem buildInventory_unknown_records_clear (analyses : List IngressAnalysis) :
    ∀ u ∈ (BuildAnnotationInventory analyses).unknownAnnotations,
      u.risk = "" ∧ u.description = "" ∧ u.migrationNote = "" ∧ u.sourceURL = "" := by
  intro u hu
  have he : (BuildAnnotationInventory analyses).unknownAnnotations
      = (analyses.foldl buildStep ([], [], [])).2.2 := rfl
  rw [he] at hu
  exact foldl_buildStep_unknown_meta analyses ([], [], []) (by simp) u hu

/-- The unknown-map metadata invariant applied to a concrete build whose
unknown map holds one record: its head has all four metadata fields empty. -/
theorem buildInventory_unknown_records_clear_witness :
    ((BuildAnnotationInventory wC10Analyses).unknownAnnotations.head?.map
      (fun u => (u.risk, u.description, u.migrationNote, u.sourceURL)))
      = some ("", "", "", "") := by
  cases hm : (BuildAnnotationInventory wC10Analyses).unknownAnnotations with
  | nil => exact absurd hm (by decide)
  | cons u rest =>
    have h := buildInventory_unknown_records_clear wC10Analyses u
      (by rw [hm]; exact List.mem_cons_self u rest)
    show some (u.risk, u.description, u.migrationNote, u.sourceURL)
      = some ("", "", "", "")
    rw [h.1, h.2.1, h.2.2.1, h.2.2.2]

/-- Claim C9 (amended): GetMostCriticalAnnotations leaves the all map, the
nginx map and the summary of the inventory unchanged, and every record of
the unknown map keeps all its fields except the risk level, which the call
overwrites with "UNKNOWN". -/
theorem getMostCritical_frame (inv : AnnotationInventory) (limit : Nat) :
    ((GetMostCriticalAnnotations inv limit).2).allAnnotations = inv.allAnnotations ∧
    ((GetMostCriticalAnnotations inv limit).2).nginxAnnotations = inv.nginxAnnotations ∧
    ((GetMostCriticalAnnotations inv limit).2).summary = inv.summary ∧
    ((GetMostCriticalAnnotations inv limit).2).unknownAnnotations
      = inv.unknownAnnotations.map markUnknown ∧
    ∀ u ∈ inv.unknownAnnotations,
      ∃ u2 ∈ ((GetMostCriticalAnnotations inv limit).2).unknownAnnotations,
        u2.key = u.key ∧ u2.usageCount = u.usageCount ∧
        u2.uniqueValues = u.uniqueValues ∧ u2.namespaces = u.namespaces ∧
        u2.valueExamples = u.valueExamples ∧ u2.description = u.description ∧
        u2.migrationNote = u.migrationNote ∧ u2.sourceURL = u.sourceURL ∧
        u2.risk = "UNKNOWN" := by
  refine ⟨rfl, rfl, rfl, rfl, ?_⟩
  intro u hu
  refine ⟨markUnknown u, ?_, ?_⟩
  · show markUnknown u ∈ inv.unknownAnnotations.map markUnknown
    exact List.mem_map.mpr ⟨u, hu, rfl⟩
  · simp [markUnknown]

theorem insertDesc_perm (x : AnnotationUsage) (l : List AnnotationUsage) :
    (insertDesc x l).Perm (x :: l) := by
  induction l with
  | nil => simp [insertDesc]
  | cons y ys ih =>
    unfold insertDesc
    by_cases h : x.usageCount > y.usageCount
    · simp [h]
    · simp only [h, if_false]
      exact (ih.cons y).trans (List.Perm.swap x y ys)

theorem mem_insertDesc (x z : AnnotationUsage) (l : List AnnotationUsage)
    (hz : z ∈ insertDesc x l) : z = x ∨ z ∈ l := by
  have := (insertDesc_perm x l).mem_iff.mp hz
  simpa using this

theorem insertDesc_sorted (x : AnnotationUsage) (l : List AnnotationUsage)
    (h : l.Pairwise (fun a b => b.usageCount ≤ a.usageCount)) :
    (insertDesc x l).Pairwise (fun a b => b.usageCount ≤ a.usageCount) := by
  induction l with
  | nil => simp [insertDesc]
  | cons y ys ih =>
    unfold insertDesc
    by_cases hc : x.usageCount > y.usageCount
    · simp only [hc, if_true]
      refine List.Pairwise.cons ?_ h
      intro b hb
      rcases List.mem_cons.mp hb with hb | hb
      · rw [hb]; exact Nat.le_of_lt hc
      · have hyb := (List.pairwise_cons.mp h).1 b hb
        exact Nat.le_trans hyb (Nat.le_of_lt hc)
    · simp only [hc, if_false]
      have hys := (List.pairwise_cons.mp h).2
      refine List.Pairwise.cons ?_ (ih hys)
      intro b hb
      rcases mem_insertDesc x b ys hb with hb | hb
      · rw [hb]; exact Nat.le_of_not_lt hc
      · exact (List.pairwise_cons.mp h).1 b hb

theorem sortByUsageDesc_perm (l : List AnnotationUsage) :
    (sortByUsageDesc l).Perm l := by
  have hgen : ∀ (l acc : List AnnotationUsage),
      (l.foldl (fun acc x => insertDesc x acc) acc).Perm (acc ++ l) := by
    intro l
    induction l with
    | nil => intro acc; simp
    | cons x xs ih =>
      intro acc
      simp only [List.foldl_cons]
      refine (ih (insertDesc x acc)).trans ?_
      refine (List.Perm.append_right xs (insertDesc_perm x acc)).trans ?_
      show ((x :: acc) ++ xs).Perm (acc ++ x :: xs)
      exact List.perm_middle.symm
  simpa using hgen l []

theorem sortByUsageDesc_sorted (l : List AnnotationUsage) :
    (sortByUsageDesc l).Pairwise (fun a b => b.usageCount ≤ a.usageCount) := by
  have hgen : ∀ (l acc : List AnnotationUsage),
      acc.Pairwise (fun a b => b.usageCount ≤ a.usageCount) →
      (l.foldl (fun acc x => insertDesc x acc) acc).Pairwise
        (fun a b => b.usageCount ≤ a.usageCount) := by
    intro l
    induction l with
    | nil => intro acc h; simpa using h
    | cons x xs ih =>
      intro acc h
      simp only [List.foldl_cons]
      exact ih (insertDesc x acc) (insertDesc_sorted x acc h)
  exact hgen l [] (by simp)

/-- Claim C5 (amended): GetMostCriticalAnnotations takes exactly the known
(nginx) records with risk HIGH_RISK together with all unknown records (the
latter re-marked UNKNOWN), sorts them descending by usageCount — the
relative order of tied entries follows candidate iteration order and is NOT
broken by ascending key — and truncates to limit; with at most limit
candidates all of them are returned, without error. -/
theorem getMostCritical_spec (inv : AnnotationInventory) (limit : Nat) :
    (GetMostCriticalAnnotations inv limit).1
      = (sortByUsageDesc (inv.nginxAnnotations.filter (fun u => u.risk == RiskHigh)
          ++ inv.unknownAnnotations.map markUnknown)).take limit ∧
    (sortByUsageDesc (inv.nginxAnnotations.filter (fun u => u.risk == RiskHigh)
        ++ inv.unknownAnnotations.map markUnknown)).Perm
      (inv.nginxAnnotations.filter (fun u => u.risk == RiskHigh)
        ++ inv.unknownAnnotations.map markUnknown) ∧
    (GetMostCriticalAnnotations inv limit).1.Pairwise
      (fun a b => b.usageCount ≤ a.usageCount) ∧
    (GetMostCriticalAnnotations inv limit).1.length ≤ limit ∧
    ((inv.nginxAnnotations.filter (fun u => u.risk == RiskHigh)
        ++ inv.unknownAnnotations.map markUnknown).length ≤ limit →
      (GetMostCriticalAnnotations inv limit).1
        = sortByUsageDesc (inv.nginxAnnotations.filter (fun u => u.risk == RiskHigh)
            ++ inv.unknownAnnotations.map markUnknown)) := by
  have heq : (GetMostCriticalAnnotations inv limit).1
      = (sortByUsageDesc (inv.nginxAnnotations.filter (fun u => u.risk == RiskHigh)
          ++ inv.unknownAnnotations.map markUnknown)).take limit := by
    show (if (sortByUsageDesc _).length > limit then (sortByUsageDesc _).take limit
      else sortByUsageDesc _) = _
    by_cases h : (sortByUsageDesc (inv.nginxAnnotations.filter (fun u => u.risk == RiskHigh)
        ++ inv.unknownAnnotations.map markUnknown)).length > limit
    · simp [h]
    · simp only [h, if_false]
      exact (List.take_of_length_le (Nat.le_of_not_lt h)).symm
  refine ⟨heq, sortByUsageDesc_perm _, ?_, ?_, ?_⟩
  · rw [heq]
    exact (sortByUsageDesc_sorted _).sublist (List.take_sublist _ _)
  · rw [heq, List.length_take]
    exact Nat.min_le_left _ _
  · intro hle
    rw [heq]
    apply List.take_of_length_le
    rw [(sortByUsageDesc_perm _).length_eq]
    exact hle

theorem nginx_not_system (key : String)
    (h : strStartsWith key nginxPrefixStr = true) :
    isSystemAnnotationKey key = false := by
  unfold strStartsWith nginxPrefixStr at h
  have hd : ("nginx.ingress.kubernetes.io/").data
      = 'n' :: 'g' :: ("inx.ingress.kubernetes.io/").data := rfl
  rw [hd] at h
  obtain ⟨data⟩ := key
  cases data with
  | nil => exact absurd h (by simp [List.isPrefixOf])
  | cons c cs =>
    cases cs with
    | nil =>
      simp only [List.isPrefixOf, Bool.and_eq_true, beq_iff_eq] at h
      exact absurd h.2 (by simp [List.isPrefixOf])
    | cons c2 cs2 =>
      simp only [List.isPrefixOf, Bool.and_eq_true, beq_iff_eq] at h
      obtain ⟨hc, hc2, -⟩ := h
      rw [← hc, ← hc2]
      rfl

theorem getUnknown_eq_filterMap (annotations : List (String × String)) :
    GetUnknownNginxAnnotations annotations
      = (annotations.filter (fun kv => strStartsWith kv.1 nginxPrefixStr &&
          !(GetAnnotationRules.any (fun rule => rule.pattern == kv.1)))).map Prod.fst := by
  have hgen : ∀ (l : List (String × String)) (acc : List String),
      l.foldl (fun acc kv =>
        if strStartsWith kv.1 nginxPrefixStr &&
            !(GetAnnotationRules.any (fun rule => rule.pattern == kv.1)) then
          acc ++ [kv.1]
        else acc) acc
        = acc ++ (l.filter (fun kv => strStartsWith kv.1 nginxPrefixStr &&
            !(GetAnnotationRules.any (fun rule => rule.pattern == kv.1)))).map Prod.fst := by
    intro l
    induction l with
    | nil => intro acc; simp
    | cons kv rest ih =>
      intro acc
      rw [List.foldl_cons, List.filter_cons]
      by_cases h : (strStartsWith kv.1 nginxPrefixStr &&
          !(GetAnnotationRules.any (fun rule => rule.pattern == kv.1))) = true
      · rw [if_pos h, if_pos h, ih]
        simp
      · rw [if_neg h, if_neg h, ih]
  have h0 := hgen annotations []
  rw [List.nil_append] at h0
  exact h0

theorem mem_getUnknown_iff (annotations : List (String × String)) (key : String) :
    key ∈ GetUnknownNginxAnnotations annotations ↔
      (strStartsWith key nginxPrefixStr = true ∧
        (GetAnnotationRules.any (fun rule => rule.pattern == key)) = false ∧
        ∃ kv ∈ annotations, kv.1 = key) := by
  rw [getUnknown_eq_filterMap]
  simp only [List.mem_map, List.mem_filter]
  constructor
  · rintro ⟨kv, ⟨hmem, hguard⟩, hk⟩
    rw [hk] at hguard
    simp only [Bool.and_eq_true, Bool.not_eq_true'] at hguard
    exact ⟨hguard.1, hguard.2, kv, hmem, hk⟩
  · rintro ⟨h1, h2, kv, hmem, hk⟩
    refine ⟨kv, ⟨hmem, ?_⟩, hk⟩
    rw [hk]
    simp [h1, h2]

theorem getUnknown_nodup (annotations : List (String × String))
    (h : (annotations.map Prod.fst).Nodup) :
    (GetUnknownNginxAnnotations annotations).Nodup := by
  rw [getUnknown_eq_filterMap]
  have hsub : ((annotations.filter (fun kv => strStartsWith kv.1 nginxPrefixStr &&
      !(GetAnnotationRules.any (fun rule => rule.pattern == kv.1)))).map Prod.fst).Sublist
        (annotations.map Prod.fst) :=
    List.Sublist.map Prod.fst (List.filter_sublist annotations)
  exact hsub.nodup h

theorem updateUsage_key (u : AnnotationUsage) (v nsName : String) :
    (updateUsage u v nsName).key = u.key := rfl

theorem attachRuleInfo_key (u : AnnotationUsage) :
    (attachRuleInfo u).key = u.key := by
  unfold attachRuleInfo
  cases GetRuleByPattern u.key <;> rfl

theorem attachRuleInfo_usageCount (u : AnnotationUsage) :
    (attachRuleInfo u).usageCount = u.usageCount := by
  unfold attachRuleInfo
  cases GetRuleByPattern u.key <;> rfl

theorem attachRuleInfo_namespaces (u : AnnotationUsage) :
    (attachRuleInfo u).namespaces = u.namespaces := by
  unfold attachRuleInfo
  cases GetRuleByPattern u.key <;> rfl

theorem attachRuleInfo_uniqueValues (u : AnnotationUsage) :
    (attachRuleInfo u).uniqueValues = u.uniqueValues := by
  unfold attachRuleInfo
  cases GetRuleByPattern u.key <;> rfl

theorem processAnnotationsStep_eq (nsName : String) (p : UsageMap × UsageMap)
    (kv : String × String) :
    processAnnotationsStep nsName p kv =
      (guardedStep gAll id nsName p.1 kv,
       guardedStep gNginx attachRuleInfo nsName p.2 kv) := by
  by_cases h1 : isSystemAnnotationKey kv.1 = true
  · simp [processAnnotationsStep, guardedStep, gAll, gNginx, h1]
  · by_cases h2 : strStartsWith kv.1 nginxPrefixStr = true
    · simp [processAnnotationsStep, guardedStep, gAll, gNginx, h1, h2]
    · simp [processAnnotationsStep, guardedStep, gAll, gNginx, h1, h2]

theorem foldl_processAnnotations_split (ann : List (String × String)) (nsName : String) :
    ∀ (A N : UsageMap),
    ann.foldl (processAnnotationsStep nsName) (A, N) =
      (ann.foldl (guardedStep gAll id nsName) A,
       ann.foldl (guardedStep gNginx attachRuleInfo nsName) N) := by
  induction ann with
  | nil => intro A N; rfl
  | cons kv rest ih =>
    intro A N
    rw [List.foldl_cons, processAnnotationsStep_eq, ih, List.foldl_cons, List.foldl_cons]

theorem containsKeyA_cons (kv : String × String) (rest : List (String × String))
    (key : String) :
    containsKeyA (kv :: rest) key = ((kv.1 == key) || containsKeyA rest key) := by
  by_cases h : (kv.1 == key) = true
  · rw [show containsKeyA (kv :: rest) key =
        (some kv).isSome from congrArg Option.isSome (List.find?_cons_of_pos _ h)]
    simp [h]
  · rw [show containsKeyA (kv :: rest) key = containsKeyA rest key from
      congrArg Option.isSome (List.find?_cons_of_neg _ (by simp [h]))]
    simp [h]

theorem containsKeyA_iff_mem (ann : List (String × String)) (key : String) :
    containsKeyA ann key = true ↔ key ∈ ann.map Prod.fst := by
  unfold containsKeyA
  exact findByKey_isSome_iff Prod.fst ann key

theorem lookupValue_cons_hit (kv : String × String) (rest : List (String × String))
    (key : String) (h : (kv.1 == key) = true) :
    lookupValue (kv :: rest) key = kv.2 := by
  unfold lookupValue findByKey
  have hf : List.find? (fun x => x.1 == key) (kv :: rest) = some kv :=
    List.find?_cons_of_pos _ h
  rw [hf]

theorem lookupValue_cons_miss (kv : String × String) (rest : List (String × String))
    (key : String) (h : (kv.1 == key) = false) :
    lookupValue (kv :: rest) key = lookupValue rest key := by
  unfold lookupValue findByKey
  have hf : List.find? (fun x => x.1 == key) (kv :: rest)
      = List.find? (fun x => x.1 == key) rest :=
    List.find?_cons_of_neg _ (by simp [h])
  rw [hf]

theorem guardedFold_lookup_miss (g : String → Bool)
    (att : AnnotationUsage → AnnotationUsage) (nsName : String)
    (hatt : ∀ u, (att u).key = u.key) (ann : List (String × String)) (key : String)
    (hmiss : g key = false ∨ containsKeyA ann key = false) :
    ∀ m : UsageMap,
      findByKey AnnotationUsage.key (ann.foldl (guardedStep g att nsName) m) key
        = findByKey AnnotationUsage.key m key := by
  induction ann with
  | nil => intro m; rfl
  | cons kv rest ih =>
    intro m
    have hmiss2 : g key = false ∨ containsKeyA rest key = false := by
      rcases hmiss with h | h
      · exact Or.inl h
      · rw [containsKeyA_cons] at h
        exact Or.inr (by
          rcases Bool.or_eq_false_iff.mp h with ⟨-, h2⟩
          exact h2)
    rw [List.foldl_cons]
    rw [ih hmiss2]
    unfold guardedStep
    by_cases hg : g kv.1 = true
    · rw [if_pos hg]
      have hne : key ≠ kv.1 := by
        intro he
        rcases hmiss with h | h
        · rw [he] at h; rw [h] at hg; exact Bool.false_ne_true hg
        · rw [containsKeyA_cons] at h
          rcases Bool.or_eq_false_iff.mp h with ⟨h1, -⟩
          rw [he] at h1
          simp at h1
      unfold updateUsageMap
      exact findByKey_updateByKey_other AnnotationUsage.key m kv.1 key (emptyUsage kv.1) _
        (fun x hx => by rw [hatt, updateUsage_key, hx]) rfl hne
    · rw [if_neg hg]

theorem guardedFold_lookup_hit (g : String → Bool)
    (att : AnnotationUsage → AnnotationUsage) (nsName : String)
    (hatt : ∀ u, (att u).key = u.key) (ann : List (String × String))
    (hnd : (ann.map Prod.fst).Nodup) (key : String) (hg : g key = true)
    (hin : containsKeyA ann key = true) :
    ∀ m : UsageMap,
      findByKey AnnotationUsage.key (ann.foldl (guardedStep g att nsName) m) key
        = some (att (updateUsage
            ((findByKey AnnotationUsage.key m key).getD (emptyUsage key))
            (lookupValue ann key) nsName)) := by
  induction ann with
  | nil => intro m; exact absurd hin (by simp [containsKeyA, findByKey])
  | cons kv rest ih =>
    intro m
    rw [List.foldl_cons]
    by_cases hk : (kv.1 == key) = true
    · have hkey : kv.1 = key := by simpa using hk
      have hnotin : containsKeyA rest key = false := by
        have hkn : key ∉ rest.map Prod.fst := by
          rw [← hkey]
          exact (List.nodup_cons.mp (by simpa using hnd)).1
        cases hc : containsKeyA rest key
        · rfl
        · exact absurd ((containsKeyA_iff_mem rest key).mp hc) hkn
      rw [guardedFold_lookup_miss g att nsName hatt rest key (Or.inr hnotin)]
      rw [lookupValue_cons_hit kv rest key hk]
      unfold guardedStep
      rw [hkey] at *
      rw [if_pos hg]
      unfold updateUsageMap
      exact findByKey_updateByKey_same AnnotationUsage.key m key (emptyUsage key) _
        (fun x hx => by rw [hatt, updateUsage_key, hx]) rfl
    · have hkf : (kv.1 == key) = false := by
        cases hx : (kv.1 == key)
        · rfl
        · exact absurd hx hk
      have hin2 : containsKeyA rest key = true := by
        rw [containsKeyA_cons] at hin
        rcases Bool.or_eq_true_iff.mp hin with h | h
        · exact absurd h (by simp [hkf])
        · exact h
      have hnd2 : (rest.map Prod.fst).Nodup := (List.nodup_cons.mp (by simpa using hnd)).2
      rw [ih hnd2 hin2]
      rw [lookupValue_cons_miss kv rest key hkf]
      unfold guardedStep
      by_cases hg2 : g kv.1 = true
      · rw [if_pos hg2]
        unfold updateUsageMap
        rw [findByKey_updateByKey_other AnnotationUsage.key m kv.1 key (emptyUsage kv.1) _
          (fun x hx => by rw [hatt, updateUsage_key, hx]) rfl
          (fun he => by rw [he] at hk; simp at hk)]
      · rw [if_neg hg2]

theorem guardedFold_nodup (g : String → Bool)
    (att : AnnotationUsage → AnnotationUsage) (nsName : String)
    (hatt : ∀ u, (att u).key = u.key) (ann : List (String × String)) :
    ∀ m : UsageMap, (keysOf AnnotationUsage.key m).Nodup →
      (keysOf AnnotationUsage.key (ann.foldl (guardedStep g att nsName) m)).Nodup := by
  induction ann with
  | nil => intro m hm; simpa using hm
  | cons kv rest ih =>
    intro m hm
    rw [List.foldl_cons]
    apply ih
    unfold guardedStep
    by_cases hg : g kv.1 = true
    · rw [if_pos hg]
      exact nodup_keysOf_updateByKey AnnotationUsage.key m kv.1 (emptyUsage kv.1) _
        (fun x hx => by rw [hatt, updateUsage_key, hx]) rfl hm
    · rw [if_neg hg]
      exact hm

theorem unknownFold_lookup_miss (ann : List (String × String)) (nsName : String)
    (ks : List String) (key : String) (hmiss : key ∉ ks) :
    ∀ m : UsageMap,
      findByKey AnnotationUsage.key (ks.foldl (processUnknownStep ann nsName) m) key
        = findByKey AnnotationUsage.key m key := by
  induction ks with
  | nil => intro m; rfl
  | cons k rest ih =>
    intro m
    rw [List.foldl_cons]
    rw [ih (fun hmem => hmiss (by simp [hmem]))]
    unfold processUnknownStep updateUsageMap
    exact findByKey_updateByKey_other AnnotationUsage.key m k key (emptyUsage k) _
      (fun x hx => by rw [updateUsage_key, hx]) rfl
      (fun he => hmiss (by simp [he]))

theorem unknownFold_lookup_hit (ann : List (String × String)) (nsName : String)
    (ks : List String) (hnd : ks.Nodup) (key : String) (hin : key ∈ ks) :
    ∀ m : UsageMap,
      findByKey AnnotationUsage.key (ks.foldl (processUnknownStep ann nsName) m) key
        = some (updateUsage
            ((findByKey AnnotationUsage.key m key).getD (emptyUsage key))
            (lookupValue ann key) nsName) := by
  induction ks with
  | nil => intro m; exact absurd hin (List.not_mem_nil key)
  | cons k rest ih =>
    intro m
    rw [List.foldl_cons]
    by_cases hk : k = key
    · have hnotin : key ∉ rest := by
        rw [← hk]
        exact (List.nodup_cons.mp hnd).1
      rw [unknownFold_lookup_miss ann nsName rest key hnotin]
      unfold processUnknownStep updateUsageMap
      rw [hk]
      exact findByKey_updateByKey_same AnnotationUsage.key m key (emptyUsage key) _
        (fun x hx => by rw [updateUsage_key, hx]) rfl
    · have hin2 : key ∈ rest := by
        rcases List.mem_cons.mp hin with h | h
        · exact absurd h.symm hk
        · exact h
      rw [ih (List.nodup_cons.mp hnd).2 hin2]
      unfold processUnknownStep updateUsageMap
      rw [findByKey_updateByKey_other AnnotationUsage.key m k key (emptyUsage k) _
        (fun x hx => by rw [updateUsage_key, hx]) rfl (fun he => hk he.symm)]

theorem unknownFold_nodup (ann : List (String × String)) (nsName : String)
    (ks : List String) :
    ∀ m : UsageMap, (keysOf AnnotationUsage.key m).Nodup →
      (keysOf AnnotationUsage.key (ks.foldl (processUnknownStep ann nsName) m)).Nodup := by
  induction ks with
  | nil => intro m hm; simpa using hm
  | cons k rest ih =>
    intro m hm
    rw [List.foldl_cons]
    apply ih
    unfold processUnknownStep updateUsageMap
    exact nodup_keysOf_updateByKey AnnotationUsage.key m k (emptyUsage k) _
      (fun x hx => by rw [updateUsage_key, hx]) rfl hm

theorem updateUsage_usageCount (u : AnnotationUsage) (v nsName : String) :
    (updateUsage u v nsName).usageCount = u.usageCount + 1 := rfl

theorem updateUsage_namespaces (u : AnnotationUsage) (v nsName : String) :
    (updateUsage u v nsName).namespaces =
      if u.namespaces.contains nsName then u.namespaces
      else u.namespaces ++ [nsName] := rfl

theorem updateUsage_uniqueValues (u : AnnotationUsage) (v nsName : String) :
    (updateUsage u v nsName).uniqueValues =
      if u.uniqueValues.contains v then u.uniqueValues
      else u.uniqueValues ++ [v] := rfl

theorem mem_dedupAppend (l : List String) (x y : String) :
    (y ∈ (if l.contains x then l else l ++ [x])) ↔ (y ∈ l ∨ y = x) := by
  by_cases h : l.contains x = true
  · have hx : x ∈ l := by simpa using h
    rw [if_pos h]
    constructor
    · exact Or.inl
    · rintro (hy | hy)
      · exact hy
      · rw [hy]; exact hx
  · rw [if_neg h]
    simp

theorem nodup_dedupAppend (l : List String) (x : String) (h : l.Nodup) :
    (if l.contains x then l else l ++ [x]).Nodup := by
  by_cases hc : l.contains x = true
  · rw [if_pos hc]; exact h
  · rw [if_neg hc]
    rw [List.nodup_append]
    refine ⟨h, List.nodup_singleton x, ?_⟩
    intro y hy
    simp only [List.mem_singleton]
    intro he
    rw [he] at hy
    exact hc (by simpa using hy)

theorem mapInv_nil (contrib : IngressAnalysis → String → Bool)
    (val : IngressAnalysis → String → String)
    (att : AnnotationUsage → AnnotationUsage) :
    MapInv contrib val att [] [] := by
  refine ⟨by simp [keysOf], ?_⟩
  intro key
  constructor
  · intro _; simp
  · intro u hu; exact absurd hu (by simp [findByKey])

theorem mapInv_step (contrib : IngressAnalysis → String → Bool)
    (val : IngressAnalysis → String → String)
    (att : AnnotationUsage → AnnotationUsage)
    (step : UsageMap → IngressAnalysis → UsageMap)
    (wf : IngressAnalysis → Prop)
    (hattkey : ∀ u, (att u).key = u.key)
    (hattcnt : ∀ u, (att u).usageCount = u.usageCount)
    (hattns : ∀ u, (att u).namespaces = u.namespaces)
    (hattvals : ∀ u, (att u).uniqueValues = u.uniqueValues)
    (hS1 : ∀ m a key, wf a → contrib a key = false →
      findByKey AnnotationUsage.key (step m a) key = findByKey AnnotationUsage.key m key)
    (hS2 : ∀ m a key, wf a → contrib a key = true →
      findByKey AnnotationUsage.key (step m a) key
        = some (att (updateUsage
            ((findByKey AnnotationUsage.key m key).getD (emptyUsage key))
            (val a key) a.resource.ns)))
    (hS3 : ∀ m a, wf a → (keysOf AnnotationUsage.key m).Nodup →
      (keysOf AnnotationUsage.key (step m a)).Nodup)
    (done : List IngressAnalysis) (m : UsageMap) (a : IngressAnalysis)
    (hwa : wf a) (hinv : MapInv contrib val att done m) :
    MapInv contrib val att (done ++ [a]) (step m a) := by
  obtain ⟨hnodup, hkeys⟩ := hinv
  refine ⟨hS3 m a hwa hnodup, ?_⟩
  intro key
  by_cases hc : contrib a key = true
  · have hcount : (done ++ [a]).countP (fun x => contrib x key)
        = done.countP (fun x => contrib x key) + 1 := by
      rw [List.countP_append]
      simp [List.countP_cons, hc]
    have hlook := hS2 m a key hwa hc
    constructor
    · intro hnone
      rw [hlook] at hnone
      exact absurd hnone (by simp)
    · intro u hu
      rw [hlook] at hu
      have hueq : u = att (updateUsage
          ((findByKey AnnotationUsage.key m key).getD (emptyUsage key))
          (val a key) a.resource.ns) := (Option.some_inj.mp hu).symm
      cases hold : findByKey AnnotationUsage.key m key with
      | none =>
        have hz : done.countP (fun x => contrib x key) = 0 := (hkeys key).1 hold
        have hne : ∀ x ∈ done, ¬ contrib x key = true := List.countP_eq_zero.mp hz
        rw [hold] at hueq
        simp only [Option.getD_none] at hueq
        refine ⟨?_, ?_, ?_, ?_, ?_, ?_, ?_, ?_⟩
        · rw [hueq, hattkey, updateUsage_key]; rfl
        · rw [hueq, hattcnt, updateUsage_usageCount, hcount, hz]; rfl
        · rw [hcount]; omega
        · intro nsx
          rw [hueq, hattns, updateUsage_namespaces]
          rw [mem_dedupAppend]
          constructor
          · rintro (hmem | he)
            · exact absurd hmem (by simp [emptyUsage])
            · exact ⟨a, by simp, hc, he.symm⟩
          · rintro ⟨x, hx, hcx, hnx⟩
            rcases List.mem_append.mp hx with hx | hx
            · exact absurd hcx (hne x hx)
            · have hxa : x = a := by simpa using hx
              rw [hxa] at hnx
              exact Or.inr hnx.symm
        · rw [hueq, hattns, updateUsage_namespaces]
          exact nodup_dedupAppend _ _ (by simp [emptyUsage])
        · intro v
          rw [hueq, hattvals, updateUsage_uniqueValues]
          rw [mem_dedupAppend]
          constructor
          · rintro (hmem | he)
            · exact absurd hmem (by simp [emptyUsage])
            · exact ⟨a, by simp, hc, he.symm⟩
          · rintro ⟨x, hx, hcx, hvx⟩
            rcases List.mem_append.mp hx with hx | hx
            · exact absurd hcx (hne x hx)
            · have hxa : x = a := by simpa using hx
              rw [hxa] at hvx
              exact Or.inr hvx.symm
        · rw [hueq, hattvals, updateUsage_uniqueValues]
          exact nodup_dedupAppend _ _ (by simp [emptyUsage])
        · exact ⟨updateUsage (emptyUsage key) (val a key) a.resource.ns,
            by rw [updateUsage_key]; rfl, hueq⟩
      | some w =>
        obtain ⟨w1, w2, w3, w4, w5, w6, w7, -⟩ := (hkeys key).2 w hold
        rw [hold] at hueq
        simp only [Option.getD_some] at hueq
        refine ⟨?_, ?_, ?_, ?_, ?_, ?_, ?_, ?_⟩
        · rw [hueq, hattkey, updateUsage_key, w1]
        · rw [hueq, hattcnt, updateUsage_usageCount, w2, hcount]
        · rw [hcount]; omega
        · intro nsx
          rw [hueq, hattns, updateUsage_namespaces, mem_dedupAppend]
          constructor
          · rintro (hmem | he)
            · obtain ⟨x, hx, hcx, hnx⟩ := (w4 nsx).mp hmem
              exact ⟨x, by simp [hx], hcx, hnx⟩
            · exact ⟨a, by simp, hc, he.symm⟩
          · rintro ⟨x, hx, hcx, hnx⟩
            rcases List.mem_append.mp hx with hx | hx
            · exact Or.inl ((w4 nsx).mpr ⟨x, hx, hcx, hnx⟩)
            · have hxa : x = a := by simpa using hx
              rw [hxa] at hnx
              exact Or.inr hnx.symm
        · rw [hueq, hattns, updateUsage_namespaces]
          exact nodup_dedupAppend _ _ w5
        · intro v
          rw [hueq, hattvals, updateUsage_uniqueValues, mem_dedupAppend]
          constructor
          · rintro (hmem | he)
            · obtain ⟨x, hx, hcx, hvx⟩ := (w6 v).mp hmem
              exact ⟨x, by simp [hx], hcx, hvx⟩
            · exact ⟨a, by simp, hc, he.symm⟩
          · rintro ⟨x, hx, hcx, hvx⟩
            rcases List.mem_append.mp hx with hx | hx
            · exact Or.inl ((w6 v).mpr ⟨x, hx, hcx, hvx⟩)
            · have hxa : x = a := by simpa using hx
              rw [hxa] at hvx
              exact Or.inr hvx.symm
        · rw [hueq, hattvals, updateUsage_uniqueValues]
          exact nodup_dedupAppend _ _ w7
        · exact ⟨updateUsage w (val a key) a.resource.ns,
            by rw [updateUsage_key, w1], hueq⟩
  · have hcf : contrib a key = false := by
      cases hx : contrib a key
      · rfl
      · exact absurd hx hc
    have hcount : (done ++ [a]).countP (fun x => contrib x key)
        = done.countP (fun x => contrib x key) := by
      rw [List.countP_append]
      simp [List.countP_cons, hcf]
    have hlook := hS1 m a key hwa hcf
    constructor
    · intro hnone
      rw [hlook] at hnone
      rw [hcount]
      exact (hkeys key).1 hnone
    · intro u hu
      rw [hlook] at hu
      obtain ⟨h1, h2, h3, h4, h5, h6, h7, h8⟩ := (hkeys key).2 u hu
      refine ⟨h1, by rw [hcount]; exact h2, by rw [hcount]; exact h3, ?_, h5, ?_, h7, h8⟩
      · intro nsx
        rw [h4 nsx]
        constructor
        · rintro ⟨x, hx, hcx, hnx⟩
          exact ⟨x, by simp [hx], hcx, hnx⟩
        · rintro ⟨x, hx, hcx, hnx⟩
          rcases List.mem_append.mp hx with hx | hx
          · exact ⟨x, hx, hcx, hnx⟩
          · have hxa : x = a := by simpa using hx
            rw [hxa] at hcx
            exact absurd hcx hc
      · intro v
        rw [h6 v]
        constructor
        · rintro ⟨x, hx, hcx, hvx⟩
          exact ⟨x, by simp [hx], hcx, hvx⟩
        · rintro ⟨x, hx, hcx, hvx⟩
          rcases List.mem_append.mp hx with hx | hx
          · exact ⟨x, hx, hcx, hvx⟩
          · have hxa : x = a := by simpa using hx
            rw [hxa] at hcx
            exact absurd hcx hc

theorem mapInv_foldl (contrib : IngressAnalysis → String → Bool)
    (val : IngressAnalysis → String → String)
    (att : AnnotationUsage → AnnotationUsage)
    (step : UsageMap → IngressAnalysis → UsageMap)
    (wf : IngressAnalysis → Prop)
    (hattkey : ∀ u, (att u).key = u.key)
    (hattcnt : ∀ u, (att u).usageCount = u.usageCount)
    (hattns : ∀ u, (att u).namespaces = u.namespaces)
    (hattvals : ∀ u, (att u).uniqueValues = u.uniqueValues)
    (hS1 : ∀ m a key, wf a → contrib a key = false →
      findByKey AnnotationUsage.key (step m a) key = findByKey AnnotationUsage.key m key)
    (hS2 : ∀ m a key, wf a → contrib a key = true →
      findByKey AnnotationUsage.key (step m a) key
        = some (att (updateUsage
            ((findByKey AnnotationUsage.key m key).getD (emptyUsage key))
            (val a key) a.resource.ns)))
    (hS3 : ∀ m a, wf a → (keysOf AnnotationUsage.key m).Nodup →
      (keysOf AnnotationUsage.key (step m a)).Nodup)
    (analyses : List IngressAnalysis) :
    ∀ (done : List IngressAnalysis) (m : UsageMap),
    (∀ a ∈ analyses, wf a) → MapInv contrib val att done m →
    MapInv contrib val att (done ++ analyses) (analyses.foldl step m) := by
  induction analyses with
  | nil => intro done m _ hinv; simpa using hinv
  | cons a rest ih =>
    intro done m hall hinv
    have hstep := mapInv_step contrib val att step wf hattkey hattcnt hattns hattvals
      hS1 hS2 hS3 done m a (hall a (by simp)) hinv
    have := ih (done ++ [a]) (step m a) (fun x hx => hall x (by simp [hx])) hstep
    simpa [List.append_assoc] using this

theorem buildStep_eq (maps : UsageMap × UsageMap × UsageMap) (a : IngressAnalysis) :
    buildStep maps a =
      (stepAll maps.1 a, stepNginx maps.2.1 a, stepUnknown maps.2.2 a) := by
  unfold buildStep stepAll stepNginx stepUnknown
  rw [foldl_processAnnotations_split]

theorem foldl_buildStep_split (analyses : List IngressAnalysis) :
    ∀ maps : UsageMap × UsageMap × UsageMap,
    analyses.foldl buildStep maps =
      (analyses.foldl stepAll maps.1, analyses.foldl stepNginx maps.2.1,
       analyses.foldl stepUnknown maps.2.2) := by
  induction analyses with
  | nil => intro maps; rfl
  | cons a rest ih =>
    intro maps
    rw [List.foldl_cons, buildStep_eq, ih, List.foldl_cons, List.foldl_cons,
      List.foldl_cons]

theorem findByKey_of_mem_nodup {β : Type} (keyOf : β → String) (m : List β)
    (hnd : (keysOf keyOf m).Nodup) (x : β) (hx : x ∈ m) :
    findByKey keyOf m (keyOf x) = some x := by
  induction m with
  | nil => exact absurd hx (List.not_mem_nil x)
  | cons y ys ih =>
    have hnd2 : (keysOf keyOf ys).Nodup := by
      have : keysOf keyOf (y :: ys) = keyOf y :: keysOf keyOf ys := rfl
      rw [this] at hnd
      exact (List.nodup_cons.mp hnd).2
    rcases List.mem_cons.mp hx with he | hmem
    · rw [he]
      unfold findByKey
      exact List.find?_cons_of_pos _ (by simp)
    · have hnot : keyOf y ∉ keysOf keyOf ys := by
        have : keysOf keyOf (y :: ys) = keyOf y :: keysOf keyOf ys := rfl
        rw [this] at hnd
        exact (List.nodup_cons.mp hnd).1
      have hyx : (keyOf y == keyOf x) = false := by
        have hin : keyOf x ∈ keysOf keyOf ys :=
          (mem_keysOf_iff keyOf ys (keyOf x)).mpr ⟨x, hmem, rfl⟩
        cases hb : (keyOf y == keyOf x)
        · rfl
        · have he : keyOf y = keyOf x := by simpa using hb
          rw [he] at hnot
          exact absurd hin hnot
      unfold findByKey
      rw [List.find?_cons_of_neg _ (by simp [hyx])]
      exact ih hnd2 hmem

theorem nginxMap_eq (analyses : List IngressAnalysis) :
    (BuildAnnotationInventory analyses).nginxAnnotations
      = analyses.foldl stepNginx [] := by
  show (analyses.foldl buildStep ([], [], [])).2.1 = _
  rw [foldl_buildStep_split]

theorem allMap_eq (analyses : List IngressAnalysis) :
    (BuildAnnotationInventory analyses).allAnnotations
      = analyses.foldl stepAll [] := by
  show (analyses.foldl buildStep ([], [], [])).1 = _
  rw [foldl_buildStep_split]

theorem unknownMap_eq (analyses : List IngressAnalysis) :
    (BuildAnnotationInventory analyses).unknownAnnotations
      = analyses.foldl stepUnknown [] := by
  show (analyses.foldl buildStep ([], [], [])).2.2 = _
  rw [foldl_buildStep_split]

theorem nginxMap_inv (analyses : List IngressAnalysis)
    (hwf : ∀ a ∈ analyses, (a.resource.annotations.map Prod.fst).Nodup) :
    MapInv contribNginx valOf attachRuleInfo analyses
      ((BuildAnnotationInventory analyses).nginxAnnotations) := by
  rw [nginxMap_eq]
  have h := mapInv_foldl contribNginx valOf attachRuleInfo stepNginx
    (fun a => (a.resource.annotations.map Prod.fst).Nodup)
    attachRuleInfo_key attachRuleInfo_usageCount attachRuleInfo_namespaces
    attachRuleInfo_uniqueValues
    (by
      intro m a key hwa hcf
      unfold contribNginx at hcf
      exact guardedFold_lookup_miss gNginx attachRuleInfo a.resource.ns
        attachRuleInfo_key a.resource.annotations key
        (by
          rcases Bool.and_eq_false_iff.mp hcf with h | h
          · exact Or.inl h
          · exact Or.inr h) m)
    (by
      intro m a key hwa hct
      unfold contribNginx at hct
      obtain ⟨hg, hin⟩ : gNginx key = true ∧
          containsKeyA a.resource.annotations key = true := by simpa using hct
      exact guardedFold_lookup_hit gNginx attachRuleInfo a.resource.ns
        attachRuleInfo_key a.resource.annotations hwa key hg hin m)
    (by
      intro m a hwa hm
      exact guardedFold_nodup gNginx attachRuleInfo a.resource.ns
        attachRuleInfo_key a.resource.annotations m hm)
    analyses [] [] hwf (mapInv_nil _ _ _)
  simpa using h

theorem allMap_inv (analyses : List IngressAnalysis)
    (hwf : ∀ a ∈ analyses, (a.resource.annotations.map Prod.fst).Nodup) :
    MapInv contribAll valOf id analyses
      ((BuildAnnotationInventory analyses).allAnnotations) := by
  rw [allMap_eq]
  have h := mapInv_foldl contribAll valOf id stepAll
    (fun a => (a.resource.annotations.map Prod.fst).Nodup)
    (fun u => rfl) (fun u => rfl) (fun u => rfl) (fun u => rfl)
    (by
      intro m a key hwa hcf
      unfold contribAll at hcf
      exact guardedFold_lookup_miss gAll id a.resource.ns
        (fun u => rfl) a.resource.annotations key
        (by
          rcases Bool.and_eq_false_iff.mp hcf with h | h
          · exact Or.inl h
          · exact Or.inr h) m)
    (by
      intro m a key hwa hct
      unfold contribAll at hct
      obtain ⟨hg, hin⟩ : gAll key = true ∧
          containsKeyA a.resource.annotations key = true := by simpa using hct
      exact guardedFold_lookup_hit gAll id a.resource.ns
        (fun u => rfl) a.resource.annotations hwa key hg hin m)
    (by
      intro m a hwa hm
      exact guardedFold_nodup gAll id a.resource.ns
        (fun u => rfl) a.resource.annotations m hm)
    analyses [] [] hwf (mapInv_nil _ _ _)
  simpa using h

theorem unknownMap_inv (analyses : List IngressAnalysis)
    (hwf : ∀ a ∈ analyses, a.unknownAnnotations.Nodup) :
    MapInv contribUnknown valOf id analyses
      ((BuildAnnotationInventory analyses).unknownAnnotations) := by
  rw [unknownMap_eq]
  have h := mapInv_foldl contribUnknown valOf id stepUnknown
    (fun a => a.unknownAnnotations.Nodup)
    (fun u => rfl) (fun u => rfl) (fun u => rfl) (fun u => rfl)
    (by
      intro m a key hwa hcf
      unfold contribUnknown at hcf
      exact unknownFold_lookup_miss a.resource.annotations a.resource.ns
        a.unknownAnnotations key (by simpa using hcf) m)
    (by
      intro m a key hwa hct
      unfold contribUnknown at hct
      exact unknownFold_lookup_hit a.resource.annotations a.resource.ns
        a.unknownAnnotations hwa key (by simpa using hct) m)
    (by
      intro m a hwa hm
      exact unknownFold_nodup a.resource.annotations a.resource.ns
        a.unknownAnnotations m hm)
    analyses [] [] hwf (mapInv_nil _ _ _)
  simpa using h

/-- Claim C3: for analyses over distinct resources with well-formed
annotation maps, every record of the known (nginx) map counts exactly the
resources whose annotation map contains its key, and its namespaces list is
exactly the set of distinct namespaces of those resources, without
duplicates. -/
theorem inventory_nginx_usage_spec (resources : List IngressResource)
    (hann : ∀ r ∈ resources, (r.annotations.map Prod.fst).Nodup)
    (hdist : resources.Nodup) :
    ∀ u ∈ (BuildAnnotationInventory (resources.map analyzeIngress)).nginxAnnotations,
      u.usageCount
        = (resources.filter (fun r => containsKeyA r.annotations u.key)).length ∧
      u.namespaces.Nodup ∧
      (∀ nsx, nsx ∈ u.namespaces ↔
        ∃ r ∈ resources, containsKeyA r.annotations u.key = true ∧ r.ns = nsx) := by
  intro u hu
  have hwf : ∀ a ∈ resources.map analyzeIngress,
      (a.resource.annotations.map Prod.fst).Nodup := by
    intro a ha
    rcases List.mem_map.mp ha with ⟨r, hr, he⟩
    rw [← he, analyzeIngress_resource]
    exact hann r hr
  obtain ⟨hnd, hkeys⟩ := nginxMap_inv (resources.map analyzeIngress) hwf
  have hfind : findByKey AnnotationUsage.key
      ((BuildAnnotationInventory (resources.map analyzeIngress)).nginxAnnotations) u.key
      = some u := findByKey_of_mem_nodup AnnotationUsage.key _ hnd u hu
  obtain ⟨-, hcnt, hpos, hns, hnsnd, -, -, -⟩ := (hkeys u.key).2 u hfind
  have hg : gNginx u.key = true := by
    rcases List.countP_pos.mp hpos with ⟨a, ha, hca⟩
    unfold contribNginx at hca
    obtain ⟨hg, -⟩ : gNginx u.key = true ∧
        containsKeyA a.resource.annotations u.key = true := by simpa using hca
    exact hg
  refine ⟨?_, hnsnd, ?_⟩
  · rw [hcnt]
    have hcong : (resources.map analyzeIngress).countP (fun a => contribNginx a u.key)
        = (resources.map analyzeIngress).countP
            (fun a => containsKeyA a.resource.annotations u.key) := by
      apply List.countP_congr
      intro a ha
      unfold contribNginx
      rw [hg]
      simp
    rw [hcong, List.countP_map, List.countP_eq_length_filter]
    rfl
  · intro nsx
    rw [hns nsx]
    constructor
    · rintro ⟨a, ha, hca, hnsa⟩
      rcases List.mem_map.mp ha with ⟨r, hr, he⟩
      rw [← he] at hca hnsa
      unfold contribNginx at hca
      obtain ⟨-, hc⟩ : gNginx u.key = true ∧
          containsKeyA (analyzeIngress r).resource.annotations u.key = true := by
        simpa using hca
      exact ⟨r, hr, hc, hnsa⟩
    · rintro ⟨r, hr, hc, hnsr⟩
      refine ⟨analyzeIngress r, List.mem_map.mpr ⟨r, hr, rfl⟩, ?_, hnsr⟩
      unfold contribNginx
      rw [hg]
      simpa using hc

/-- Claim C3 witness: the specification instantiated on one concrete
resource carrying a HIGH_RISK snippet annotation. -/
theorem inventory_nginx_usage_spec_witness :
    let rs : List IngressResource :=
      [ { name := "w1",
          ns := "prod",
          className := "",
          annotations := [ ("nginx.ingress.kubernetes.io/server-snippet", "cfg")] }]
    (∀ r ∈ rs, (r.annotations.map Prod.fst).Nodup) ∧ rs.Nodup ∧
      (∀ u ∈ (BuildAnnotationInventory (rs.map analyzeIngress)).nginxAnnotations,
        u.usageCount
          = (rs.filter (fun r => containsKeyA r.annotations u.key)).length ∧
        u.namespaces.Nodup ∧
        (∀ nsx, nsx ∈ u.namespaces ↔
          ∃ r ∈ rs, containsKeyA r.annotations u.key = true ∧ r.ns = nsx)) :=
  ⟨by decide, by decide,
    inventory_nginx_usage_spec _ (by decide) (by decide)⟩

/-- Claim C4 (amended): for an inventory built from the per-resource pass,
every key of the unknown map is ALSO a key of the known (nginx) map — the
two key sets are not mutually exclusive, the unknown keys are a subset of
the nginx keys (flagged UNKNOWN there). -/
theorem inventory_unknown_subset_nginx (resources : List IngressResource)
    (hann : ∀ r ∈ resources, (r.annotations.map Prod.fst).Nodup) :
    ∀ key, key ∈ keysOf AnnotationUsage.key
        (BuildAnnotationInventory (resources.map analyzeIngress)).unknownAnnotations →
      key ∈ keysOf AnnotationUsage.key
        (BuildAnnotationInventory (resources.map analyzeIngress)).nginxAnnotations := by
  intro key hk
  have hwfA : ∀ a ∈ resources.map analyzeIngress,
      (a.resource.annotations.map Prod.fst).Nodup := by
    intro a ha
    rcases List.mem_map.mp ha with ⟨r, hr, he⟩
    rw [← he, analyzeIngress_resource]
    exact hann r hr
  have hwfU : ∀ a ∈ resources.map analyzeIngress, a.unknownAnnotations.Nodup := by
    intro a ha
    rcases List.mem_map.mp ha with ⟨r, hr, he⟩
    rw [← he, analyzeIngress_unknowns]
    exact getUnknown_nodup r.annotations (hann r hr)
  obtain ⟨hndU, hkeysU⟩ := unknownMap_inv (resources.map analyzeIngress) hwfU
  obtain ⟨hndN, hkeysN⟩ := nginxMap_inv (resources.map analyzeIngress) hwfA
  have hsomeU : (findByKey AnnotationUsage.key
      ((BuildAnnotationInventory (resources.map analyzeIngress)).unknownAnnotations)
        key).isSome = true :=
    (findByKey_isSome_iff AnnotationUsage.key _ key).mpr hk
  cases hfu : findByKey AnnotationUsage.key
      ((BuildAnnotationInventory (resources.map analyzeIngress)).unknownAnnotations)
        key with
  | none => rw [hfu] at hsomeU; exact absurd hsomeU (by simp)
  | some u =>
    obtain ⟨-, -, hpos, -, -, -, -, -⟩ := (hkeysU key).2 u hfu
    rcases List.countP_pos.mp hpos with ⟨a, ha, hca⟩
    unfold contribUnknown at hca
    have hmemU : key ∈ a.unknownAnnotations := by simpa using hca
    rcases List.mem_map.mp ha with ⟨r, hr, he⟩
    rw [← he, analyzeIngress_unknowns] at hmemU
    obtain ⟨hpre, hnorule, kv, hkv, hkvk⟩ :=
      (mem_getUnknown_iff r.annotations key).mp hmemU
    have hcontains : containsKeyA r.annotations key = true :=
      (containsKeyA_iff_mem r.annotations key).mpr
        (List.mem_map.mpr ⟨kv, hkv, hkvk⟩)
    have hcn : contribNginx (analyzeIngress r) key = true := by
      unfold contribNginx gNginx
      rw [nginx_not_system key hpre, hpre]
      simpa using hcontains
    have hposN : 0 < (resources.map analyzeIngress).countP
        (fun x => contribNginx x key) :=
      List.countP_pos.mpr ⟨analyzeIngress r, List.mem_map.mpr ⟨r, hr, rfl⟩, hcn⟩
    cases hfn : findByKey AnnotationUsage.key
        ((BuildAnnotationInventory (resources.map analyzeIngress)).nginxAnnotations)
          key with
    | none =>
      have := (hkeysN key).1 hfn
      omega
    | some w =>
      rw [← findByKey_isSome_iff AnnotationUsage.key _ key, hfn]
      rfl

/-- Claim C4 witness: the amended subset statement applied to a concrete
resource with an unknown nginx annotation. -/
theorem inventory_unknown_subset_nginx_witness :
    let rs : List IngressResource :=
      [ { name := "r1",
          ns := "prod",
          className := "",
          annotations := [ ("nginx.ingress.kubernetes.io/custom-unknown", "v")] }]
    (∀ r ∈ rs, (r.annotations.map Prod.fst).Nodup) ∧
      (∀ key, key ∈ keysOf AnnotationUsage.key
          (BuildAnnotationInventory (rs.map analyzeIngress)).unknownAnnotations →
        key ∈ keysOf AnnotationUsage.key
          (BuildAnnotationInventory (rs.map analyzeIngress)).nginxAnnotations) :=
  ⟨by decide, inventory_unknown_subset_nginx _ (by decide)⟩

theorem containsKeyA_perm (ann1 ann2 : List (String × String)) (key : String)
    (h : ann1.Perm ann2) :
    containsKeyA ann1 key = containsKeyA ann2 key := by
  rw [Bool.eq_iff_iff, containsKeyA_iff_mem, containsKeyA_iff_mem]
  exact (h.map Prod.fst).mem_iff

theorem contains_perm {α : Type} [BEq α] [LawfulBEq α] (l1 l2 : List α) (x : α)
    (h : l1.Perm l2) : l1.contains x = l2.contains x := by
  rw [Bool.eq_iff_iff]
  simp only [List.contains_eq_any_beq, List.any_eq_true, beq_iff_eq]
  constructor
  · rintro ⟨y, hy, he⟩; exact ⟨y, h.mem_iff.mp hy, he⟩
  · rintro ⟨y, hy, he⟩; exact ⟨y, h.mem_iff.mpr hy, he⟩

theorem findByKey_perm_nodup {β : Type} (keyOf : β → String) (m1 m2 : List β)
    (hnd : (keysOf keyOf m1).Nodup) (h : m1.Perm m2) (key : String) :
    findByKey keyOf m1 key = findByKey keyOf m2 key := by
  have hnd2 : (keysOf keyOf m2).Nodup := ((h.map keyOf).nodup_iff).mp hnd
  cases hf : findByKey keyOf m1 key with
  | none =>
    rw [findByKey_eq_none] at hf
    symm
    rw [findByKey_eq_none]
    intro x hx
    exact hf x (h.mem_iff.mpr hx)
  | some x =>
    obtain ⟨hk, hm⟩ := findByKey_key keyOf m1 key x hf
    have := findByKey_of_mem_nodup keyOf m2 hnd2 x (h.mem_iff.mp hm)
    rw [hk] at this
    rw [this]

theorem lookupValue_perm (ann1 ann2 : List (String × String)) (key : String)
    (hnd : (ann1.map Prod.fst).Nodup) (h : ann1.Perm ann2) :
    lookupValue ann1 key = lookupValue ann2 key := by
  unfold lookupValue
  rw [findByKey_perm_nodup Prod.fst ann1 ann2 hnd h key]

theorem countP_forall₂ (R : IngressAnalysis → IngressAnalysis → Prop)
    (p : IngressAnalysis → Bool) (l1 l2 : List IngressAnalysis)
    (h : List.Forall₂ R l1 l2) (hpq : ∀ a b, a ∈ l1 → R a b → p a = p b) :
    l1.countP p = l2.countP p := by
  induction h with
  | nil => rfl
  | cons hab hrest ih =>
    rw [List.countP_cons, List.countP_cons]
    rw [hpq _ _ (by simp) hab]
    rw [ih (fun a b ha hr => hpq a b (by simp [ha]) hr)]

theorem exists_forall₂ (R : IngressAnalysis → IngressAnalysis → Prop)
    (P : IngressAnalysis → Prop) (l1 l2 : List IngressAnalysis)
    (h : List.Forall₂ R l1 l2) (hP : ∀ a b, a ∈ l1 → R a b → (P a ↔ P b)) :
    (∃ a ∈ l1, P a) ↔ ∃ b ∈ l2, P b := by
  induction h with
  | nil => simp
  | cons hab hrest ih =>
    constructor
    · rintro ⟨x, hx, hpx⟩
      rcases List.mem_cons.mp hx with he | hmem
      · exact ⟨_, by simp, (hP _ _ (by simp) hab).mp (he ▸ hpx)⟩
      · obtain ⟨b, hb, hpb⟩ := (ih (fun a b ha hr => hP a b (by simp [ha]) hr)).mp
          ⟨x, hmem, hpx⟩
        exact ⟨b, by simp [hb], hpb⟩
    · rintro ⟨y, hy, hpy⟩
      rcases List.mem_cons.mp hy with he | hmem
      · exact ⟨_, by simp, (hP _ _ (by simp) hab).mpr (he ▸ hpy)⟩
      · obtain ⟨a, ha, hpa⟩ := (ih (fun a b ha hr => hP a b (by simp [ha]) hr)).mpr
          ⟨y, hmem, hpy⟩
        exact ⟨a, by simp [ha], hpa⟩

theorem attachRuleInfo_meta (w : AnnotationUsage) :
    ((attachRuleInfo w).risk, (attachRuleInfo w).description,
      (attachRuleInfo w).migrationNote, (attachRuleInfo w).sourceURL)
      = ruleMetaOfKey w.key := by
  unfold attachRuleInfo ruleMetaOfKey
  cases GetRuleByPattern w.key <;> rfl

theorem mapInv_key_mem_iff_pos (contrib : IngressAnalysis → String → Bool)
    (val : IngressAnalysis → String → String)
    (att : AnnotationUsage → AnnotationUsage)
    (l : List IngressAnalysis) (m : UsageMap)
    (hinv : MapInv contrib val att l m) (key : String) :
    key ∈ keysOf AnnotationUsage.key m ↔ 0 < l.countP (fun a => contrib a key) := by
  obtain ⟨hnd, hkeys⟩ := hinv
  rw [← findByKey_isSome_iff]
  cases hf : findByKey AnnotationUsage.key m key with
  | none =>
    have := (hkeys key).1 hf
    simp [this]
  | some u =>
    obtain ⟨-, -, hpos, -, -, -, -, -⟩ := (hkeys key).2 u hf
    simp [hpos]

theorem mapInv_transfer (contrib : IngressAnalysis → String → Bool)
    (val : IngressAnalysis → String → String)
    (att : AnnotationUsage → AnnotationUsage)
    (l1 l2 : List IngressAnalysis) (m1 m2 : UsageMap)
    (hinv1 : MapInv contrib val att l1 m1) (hinv2 : MapInv contrib val att l2 m2)
    (hcount : ∀ key, l1.countP (fun a => contrib a key)
      = l2.countP (fun a => contrib a key))
    (hnsiff : ∀ key nsx, (∃ a ∈ l1, contrib a key = true ∧ a.resource.ns = nsx)
      ↔ (∃ a ∈ l2, contrib a key = true ∧ a.resource.ns = nsx))
    (hviff : ∀ key v, (∃ a ∈ l1, contrib a key = true ∧ val a key = v)
      ↔ (∃ a ∈ l2, contrib a key = true ∧ val a key = v)) :
    (∀ key, key ∈ keysOf AnnotationUsage.key m1 ↔ key ∈ keysOf AnnotationUsage.key m2) ∧
    m1.length = m2.length ∧
    (∀ key u1 u2, findByKey AnnotationUsage.key m1 key = some u1 →
      findByKey AnnotationUsage.key m2 key = some u2 →
      u1.usageCount = u2.usageCount ∧
      (∀ nsx, nsx ∈ u1.namespaces ↔ nsx ∈ u2.namespaces) ∧
      (∀ v, v ∈ u1.uniqueValues ↔ v ∈ u2.uniqueValues)) := by
  have hmem : ∀ key, key ∈ keysOf AnnotationUsage.key m1
      ↔ key ∈ keysOf AnnotationUsage.key m2 := by
    intro key
    rw [mapInv_key_mem_iff_pos contrib val att l1 m1 hinv1 key,
      mapInv_key_mem_iff_pos contrib val att l2 m2 hinv2 key, hcount key]
  refine ⟨hmem, ?_, ?_⟩
  · have hperm : (keysOf AnnotationUsage.key m1).Perm (keysOf AnnotationUsage.key m2) :=
      (List.perm_ext_iff_of_nodup hinv1.1 hinv2.1).mpr hmem
    have h1 : m1.length = (keysOf AnnotationUsage.key m1).length :=
      (List.length_map m1 AnnotationUsage.key).symm
    have h2 : m2.length = (keysOf AnnotationUsage.key m2).length :=
      (List.length_map m2 AnnotationUsage.key).symm
    rw [h1, h2, hperm.length_eq]
  · intro key u1 u2 hf1 hf2
    obtain ⟨-, hc1, -, hns1, -, hv1, -, -⟩ := (hinv1.2 key).2 u1 hf1
    obtain ⟨-, hc2, -, hns2, -, hv2, -, -⟩ := (hinv2.2 key).2 u2 hf2
    refine ⟨by rw [hc1, hc2, hcount key], ?_, ?_⟩
    · intro nsx
      rw [hns1 nsx, hns2 nsx]
      exact hnsiff key nsx
    · intro v
      rw [hv1 v, hv2 v]
      exact hviff key v

theorem countP_sameSet (l1 l2 : List IngressAnalysis)
    (p : IngressAnalysis → Bool)
    (hp : ∀ a b, a ∈ l1 → AnalysisEquiv a b → p a = p b)
    (hset : SameResourceSet l1 l2) :
    l1.countP p = l2.countP p := by
  obtain ⟨mid, hf, hperm⟩ := hset
  exact (countP_forall₂ AnalysisEquiv p l1 mid hf hp).trans (hperm.countP_eq p)

theorem exists_sameSet (l1 l2 : List IngressAnalysis)
    (P : IngressAnalysis → Prop)
    (hP : ∀ a b, a ∈ l1 → AnalysisEquiv a b → (P a ↔ P b))
    (hset : SameResourceSet l1 l2) :
    (∃ a ∈ l1, P a) ↔ ∃ a ∈ l2, P a := by
  obtain ⟨mid, hf, hperm⟩ := hset
  rw [exists_forall₂ AnalysisEquiv P l1 mid hf hP]
  constructor
  · rintro ⟨a, ha, hpa⟩; exact ⟨a, hperm.mem_iff.mp ha, hpa⟩
  · rintro ⟨a, ha, hpa⟩; exact ⟨a, hperm.mem_iff.mpr ha, hpa⟩

/-- Claim C8 (amended): building the inventory from the same resource set,
with the annotation maps and the analysis list presented in any iteration
order, yields extensionally equal results: the same key sets, usage counts,
namespace sets, value sets and rule metadata per key in each of the three
maps, and the same summary count fields.  Only the summary's
MostUsedAnnotation may differ between iteration orders, namely when the
maximal usage count is attained by more than one key. -/
theorem buildInventory_order_invariant
    (analyses1 analyses2 : List IngressAnalysis)
    (hwf1 : ∀ a ∈ analyses1,
      (a.resource.annotations.map Prod.fst).Nodup ∧ a.unknownAnnotations.Nodup)
    (hwf2 : ∀ a ∈ analyses2,
      (a.resource.annotations.map Prod.fst).Nodup ∧ a.unknownAnnotations.Nodup)
    (hset : SameResourceSet analyses1 analyses2) :
    (∀ key,
      (key ∈ keysOf AnnotationUsage.key
          (BuildAnnotationInventory analyses1).allAnnotations ↔
        key ∈ keysOf AnnotationUsage.key
          (BuildAnnotationInventory analyses2).allAnnotations) ∧
      (key ∈ keysOf AnnotationUsage.key
          (BuildAnnotationInventory analyses1).nginxAnnotations ↔
        key ∈ keysOf AnnotationUsage.key
          (BuildAnnotationInventory analyses2).nginxAnnotations) ∧
      (key ∈ keysOf AnnotationUsage.key
          (BuildAnnotationInventory analyses1).unknownAnnotations ↔
        key ∈ keysOf AnnotationUsage.key
          (BuildAnnotationInventory analyses2).unknownAnnotations)) ∧
    (∀ key u1 u2,
      findByKey AnnotationUsage.key
        (BuildAnnotationInventory analyses1).allAnnotations key = some u1 →
      findByKey AnnotationUsage.key
        (BuildAnnotationInventory analyses2).allAnnotations key = some u2 →
      u1.usageCount = u2.usageCount ∧
      (∀ nsx, nsx ∈ u1.namespaces ↔ nsx ∈ u2.namespaces) ∧
      (∀ v, v ∈ u1.uniqueValues ↔ v ∈ u2.uniqueValues)) ∧
    (∀ key u1 u2,
      findByKey AnnotationUsage.key
        (BuildAnnotationInventory analyses1).nginxAnnotations key = some u1 →
      findByKey AnnotationUsage.key
        (BuildAnnotationInventory analyses2).nginxAnnotations key = some u2 →
      u1.usageCount = u2.usageCount ∧
      (∀ nsx, nsx ∈ u1.namespaces ↔ nsx ∈ u2.namespaces) ∧
      (∀ v, v ∈ u1.uniqueValues ↔ v ∈ u2.uniqueValues) ∧
      u1.risk = u2.risk ∧ u1.description = u2.description ∧
      u1.migrationNote = u2.migrationNote ∧ u1.sourceURL = u2.sourceURL) ∧
    (∀ key u1 u2,
      findByKey AnnotationUsage.key
        (BuildAnnotationInventory analyses1).unknownAnnotations key = some u1 →
      findByKey AnnotationUsage.key
        (BuildAnnotationInventory analyses2).unknownAnnotations key = some u2 →
      u1.usageCount = u2.usageCount ∧
      (∀ nsx, nsx ∈ u1.namespaces ↔ nsx ∈ u2.namespaces) ∧
      (∀ v, v ∈ u1.uniqueValues ↔ v ∈ u2.uniqueValues)) ∧
    ((BuildAnnotationInventory analyses1).summary.totalUniqueAnnotations
        = (BuildAnnotationInventory analyses2).summary.totalUniqueAnnotations ∧
      (BuildAnnotationInventory analyses1).summary.nginxAnnotationsCount
        = (BuildAnnotationInventory analyses2).summary.nginxAnnotationsCount ∧
      (BuildAnnotationInventory analyses1).summary.unknownAnnotationsCount
        = (BuildAnnotationInventory analyses2).summary.unknownAnnotationsCount ∧
      (BuildAnnotationInventory analyses1).summary.mostComplexNamespace = "" ∧
      (BuildAnnotationInventory analyses2).summary.mostComplexNamespace = "") := by
  have hwfA1 : ∀ a ∈ analyses1, (a.resource.annotations.map Prod.fst).Nodup :=
    fun a ha => (hwf1 a ha).1
  have hwfA2 : ∀ a ∈ analyses2, (a.resource.annotations.map Prod.fst).Nodup :=
    fun a ha => (hwf2 a ha).1
  have hwfU1 : ∀ a ∈ analyses1, a.unknownAnnotations.Nodup :=
    fun a ha => (hwf1 a ha).2
  have hwfU2 : ∀ a ∈ analyses2, a.unknownAnnotations.Nodup :=
    fun a ha => (hwf2 a ha).2
  have hinvA1 := allMap_inv analyses1 hwfA1
  have hinvA2 := allMap_inv analyses2 hwfA2
  have hinvN1 := nginxMap_inv analyses1 hwfA1
  have hinvN2 := nginxMap_inv analyses2 hwfA2
  have hinvU1 := unknownMap_inv analyses1 hwfU1
  have hinvU2 := unknownMap_inv analyses2 hwfU2
  have htA : ∀ (key : String) a b, a ∈ analyses1 → AnalysisEquiv a b →
      contribAll a key = contribAll b key := by
    intro key a b ha h
    unfold contribAll
    rw [containsKeyA_perm _ _ key h.2.2.1]
  have htN : ∀ (key : String) a b, a ∈ analyses1 → AnalysisEquiv a b →
      contribNginx a key = contribNginx b key := by
    intro key a b ha h
    unfold contribNginx
    rw [containsKeyA_perm _ _ key h.2.2.1]
  have htU : ∀ (key : String) a b, a ∈ analyses1 → AnalysisEquiv a b →
      contribUnknown a key = contribUnknown b key := by
    intro key a b ha h
    unfold contribUnknown
    exact contains_perm _ _ key h.2.2.2
  have htV : ∀ (key : String) a b, a ∈ analyses1 → AnalysisEquiv a b →
      valOf a key = valOf b key := by
    intro key a b ha h
    unfold valOf
    exact lookupValue_perm _ _ key (hwf1 a ha).1 h.2.2.1
  have hnsP : ∀ (contrib : IngressAnalysis → String → Bool),
      (∀ (key : String) a b, a ∈ analyses1 → AnalysisEquiv a b →
        contrib a key = contrib b key) →
      ∀ key nsx, (∃ a ∈ analyses1, contrib a key = true ∧ a.resource.ns = nsx)
        ↔ ∃ a ∈ analyses2, contrib a key = true ∧ a.resource.ns = nsx := by
    intro contrib ht key nsx
    apply exists_sameSet analyses1 analyses2 _ _ hset
    intro a b ha h
    rw [ht key a b ha h, h.2.1]
  have hvP : ∀ (contrib : IngressAnalysis → String → Bool),
      (∀ (key : String) a b, a ∈ analyses1 → AnalysisEquiv a b →
        contrib a key = contrib b key) →
      ∀ key v, (∃ a ∈ analyses1, contrib a key = true ∧ valOf a key = v)
        ↔ ∃ a ∈ analyses2, contrib a key = true ∧ valOf a key = v := by
    intro contrib ht key v
    apply exists_sameSet analyses1 analyses2 _ _ hset
    intro a b ha h
    rw [ht key a b ha h, htV key a b ha h]
  obtain ⟨hmemA, hlenA, hrecA⟩ := mapInv_transfer contribAll valOf id
    analyses1 analyses2 _ _ hinvA1 hinvA2
    (fun key => countP_sameSet analyses1 analyses2 _ (htA key) hset)
    (hnsP contribAll htA) (hvP contribAll htA)
  obtain ⟨hmemN, hlenN, hrecN⟩ := mapInv_transfer contribNginx valOf attachRuleInfo
    analyses1 analyses2 _ _ hinvN1 hinvN2
    (fun key => countP_sameSet analyses1 analyses2 _ (htN key) hset)
    (hnsP contribNginx htN) (hvP contribNginx htN)
  obtain ⟨hmemU, hlenU, hrecU⟩ := mapInv_transfer contribUnknown valOf id
    analyses1 analyses2 _ _ hinvU1 hinvU2
    (fun key => countP_sameSet analyses1 analyses2 _ (htU key) hset)
    (hnsP contribUnknown htU) (hvP contribUnknown htU)
  refine ⟨fun key => ⟨hmemA key, hmemN key, hmemU key⟩, hrecA, ?_, hrecU, ?_⟩
  · intro key u1 u2 hf1 hf2
    obtain ⟨hc, hns, hv⟩ := hrecN key u1 u2 hf1 hf2
    obtain ⟨-, -, -, -, -, -, -, w1, hw1k, hw1⟩ := (hinvN1.2 key).2 u1 hf1
    obtain ⟨-, -, -, -, -, -, -, w2, hw2k, hw2⟩ := (hinvN2.2 key).2 u2 hf2
    have hm1 : (u1.risk, u1.description, u1.migrationNote, u1.sourceURL)
        = ruleMetaOfKey key := by
      rw [hw1]
      rw [← hw1k]
      exact attachRuleInfo_meta w1
    have hm2 : (u2.risk, u2.description, u2.migrationNote, u2.sourceURL)
        = ruleMetaOfKey key := by
      rw [hw2]
      rw [← hw2k]
      exact attachRuleInfo_meta w2
    have hm := hm1.trans hm2.symm
    refine ⟨hc, hns, hv, ?_, ?_, ?_, ?_⟩
    · exact congrArg (fun p => p.1) hm
    · exact congrArg (fun p => p.2.1) hm
    · exact congrArg (fun p => p.2.2.1) hm
    · exact congrArg (fun p => p.2.2.2) hm
  · refine ⟨?_, ?_, ?_, rfl, rfl⟩
    · show (BuildAnnotationInventory analyses1).allAnnotations.length
        = (BuildAnnotationInventory analyses2).allAnnotations.length
      exact hlenA
    · show (BuildAnnotationInventory analyses1).nginxAnnotations.length
        = (BuildAnnotationInventory analyses2).nginxAnnotations.length
      exact hlenN
    · show (BuildAnnotationInventory analyses1).unknownAnnotations.length
        = (BuildAnnotationInventory analyses2).unknownAnnotations.length
      exact hlenU

/-- Claim C8 witness: the order-invariance statement applied to one resource
whose two-key annotation map is presented in both iteration orders. -/
theorem buildInventory_order_invariant_witness :
    let l1 : List IngressAnalysis := [analyzeIngress
      { name := "a",
        ns := "n1",
        className := "x",
        annotations := [ ("aaa", "v"), ("bbb", "v")] }]
    let l2 : List IngressAnalysis := [analyzeIngress
      { name := "a",
        ns := "n1",
        className := "x",
        annotations := [ ("bbb", "v"), ("aaa", "v")] }]
    (∀ a ∈ l1, (a.resource.annotations.map Prod.fst).Nodup ∧
      a.unknownAnnotations.Nodup) ∧
    (∀ a ∈ l2, (a.resource.annotations.map Prod.fst).Nodup ∧
      a.unknownAnnotations.Nodup) ∧
    SameResourceSet l1 l2 ∧
    (BuildAnnotationInventory l1).summary.totalUniqueAnnotations
      = (BuildAnnotationInventory l2).summary.totalUniqueAnnotations := by
  refine ⟨by decide, by decide, ?_, ?_⟩
  · exact ⟨[analyzeIngress
      { name := "a",
        ns := "n1",
        className := "x",
        annotations := [ ("bbb", "v"), ("aaa", "v")] }],
      List.Forall₂.cons ⟨rfl, rfl, by decide, by decide⟩ List.Forall₂.nil,
      List.Perm.refl _⟩
  · exact (buildInventory_order_invariant _ _ (by decide) (by decide)
      ⟨[analyzeIngress
        { name := "a",
          ns := "n1",
          className := "x",
          annotations := [ ("bbb", "v"), ("aaa", "v")] }],
        List.Forall₂.cons ⟨rfl, rfl, by decide, by decide⟩ List.Forall₂.nil,
        List.Perm.refl _⟩).2.2.2.2.1

theorem lookupRiskCount_addRiskCount_same (m : List (RiskLevel × Nat))
    (risk : RiskLevel) (n : Nat) :
    lookupRiskCount (addRiskCount m risk n) risk = lookupRiskCount m risk + n := by
  unfold addRiskCount lookupRiskCount
  rw [findByKey_updateByKey_same Prod.fst m risk (risk, 0)
    (fun p => (p.1, p.2 + n)) (fun x hx => hx) rfl]
  cases h : findByKey Prod.fst m risk with
  | none => simp [h]
  | some p => simp [h]

theorem lookupRiskCount_addRiskCount_other (m : List (RiskLevel × Nat))
    (risk r2 : RiskLevel) (n : Nat) (hne : r2 ≠ risk) :
    lookupRiskCount (addRiskCount m risk n) r2 = lookupRiskCount m r2 := by
  unfold addRiskCount lookupRiskCount
  rw [findByKey_updateByKey_other Prod.fst m risk r2 (risk, 0)
    (fun p => (p.1, p.2 + n)) (fun x hx => hx) rfl hne]

theorem nsAccStep_lookup (acc : List (String × List (RiskLevel × Nat)))
    (nsName : String) (risk : RiskLevel) (cnt : Nat) (ns2 : String) (r2 : RiskLevel) :
    nsRiskLookup (updateByKey Prod.fst acc nsName (nsName, [])
        (fun p => (p.1, addRiskCount p.2 risk cnt))) ns2 r2
      = nsRiskLookup acc ns2 r2 + (if ns2 = nsName ∧ r2 = risk then cnt else 0) := by
  by_cases hns : ns2 = nsName
  · subst hns
    unfold nsRiskLookup
    rw [findByKey_updateByKey_same Prod.fst acc ns2 (ns2, [])
      (fun p => (p.1, addRiskCount p.2 risk cnt)) (fun x hx => hx) rfl]
    cases h : findByKey Prod.fst acc ns2 with
    | none =>
      simp only [h, Option.getD_none]
      by_cases hr : r2 = risk
      · rw [hr]
        simp [addRiskCount, updateByKey, findByKey, lookupRiskCount]
      · rw [lookupRiskCount_addRiskCount_other _ _ _ _ hr]
        simp [hr, findByKey, lookupRiskCount]
    | some p =>
      simp only [h, Option.getD_some]
      by_cases hr : r2 = risk
      · rw [hr]
        simp [lookupRiskCount_addRiskCount_same]
      · rw [lookupRiskCount_addRiskCount_other _ _ _ _ hr]
        simp [hr]
  · unfold nsRiskLookup
    rw [findByKey_updateByKey_other Prod.fst acc nsName ns2 (nsName, [])
      (fun p => (p.1, addRiskCount p.2 risk cnt)) (fun x hx => hx) rfl hns]
    simp [hns]

theorem nsAccInner_lookup (risk : RiskLevel) (cnt : Nat) (nsl : List String)
    (hnd : nsl.Nodup) (ns2 : String) (r2 : RiskLevel) :
    ∀ acc : List (String × List (RiskLevel × Nat)),
    nsRiskLookup (nsl.foldl (fun acc nsName =>
        updateByKey Prod.fst acc nsName (nsName, [])
          (fun p => (p.1, addRiskCount p.2 risk cnt))) acc) ns2 r2
      = nsRiskLookup acc ns2 r2 + (if ns2 ∈ nsl ∧ r2 = risk then cnt else 0) := by
  induction nsl with
  | nil => intro acc; simp
  | cons nsName rest ih =>
    intro acc
    rw [List.foldl_cons]
    rw [ih (List.nodup_cons.mp hnd).2]
    rw [nsAccStep_lookup]
    by_cases hns : ns2 = nsName
    · subst hns
      have hnotin : ns2 ∉ rest := (List.nodup_cons.mp hnd).1
      by_cases hr : r2 = risk
      · simp [hr, hnotin]
      · simp [hr]
    · by_cases hmem : ns2 ∈ rest
      · simp [hns, hmem]
      · simp [hns, hmem]

theorem nsComplexityAcc_lookup (u : AnnotationUsage) (hnd : u.namespaces.Nodup)
    (ns2 : String) (r2 : RiskLevel)
    (acc : List (String × List (RiskLevel × Nat))) :
    nsRiskLookup (nsComplexityAcc acc u) ns2 r2
      = nsRiskLookup acc ns2 r2
        + (if ns2 ∈ u.namespaces ∧ r2 = u.risk then u.usageCount else 0) := by
  unfold nsComplexityAcc
  exact nsAccInner_lookup u.risk u.usageCount u.namespaces hnd ns2 r2 acc

theorem sumUsage_cons (u : AnnotationUsage) (rest : UsageMap) (nsName : String)
    (risk : RiskLevel) :
    sumUsage (u :: rest) nsName risk
      = (if nsName ∈ u.namespaces ∧ risk = u.risk then u.usageCount else 0)
        + sumUsage rest nsName risk := by
  unfold sumUsage
  rw [List.filter_cons]
  by_cases h : (u.namespaces.contains nsName && u.risk == risk) = true
  · rw [if_pos h]
    obtain ⟨h1, h2⟩ : u.namespaces.contains nsName = true ∧ (u.risk == risk) = true := by
      simpa using h
    have hm : nsName ∈ u.namespaces := by simpa using h1
    have hr : risk = u.risk := by
      have h2e : u.risk = risk := by simpa using h2
      exact h2e.symm
    rw [if_pos (⟨hm, hr⟩ : nsName ∈ u.namespaces ∧ risk = u.risk)]
    simp
  · rw [if_neg h]
    have : ¬ (nsName ∈ u.namespaces ∧ risk = u.risk) := by
      intro ⟨hm, hr⟩
      apply h
      simp [hm, hr.symm]
    rw [if_neg this]
    simp

theorem nsComplexity_fold_lookup (records : UsageMap)
    (h : ∀ u ∈ records, u.namespaces.Nodup) (ns2 : String) (r2 : RiskLevel) :
    ∀ acc : List (String × List (RiskLevel × Nat)),
    nsRiskLookup (records.foldl nsComplexityAcc acc) ns2 r2
      = nsRiskLookup acc ns2 r2 + sumUsage records ns2 r2 := by
  induction records with
  | nil => intro acc; simp [sumUsage]
  | cons u rest ih =>
    intro acc
    rw [List.foldl_cons]
    rw [ih (fun x hx => h x (by simp [hx]))]
    rw [nsComplexityAcc_lookup u (h u (by simp)) ns2 r2 acc]
    rw [sumUsage_cons]
    omega

theorem mem_keysOf_updateByKey_iff {β : Type} (keyOf : β → String) (m : List β)
    (key key2 : String) (create : β) (f : β → β)
    (hf : ∀ x, keyOf x = key → keyOf (f x) = key) (hc : keyOf create = key) :
    key2 ∈ keysOf keyOf (updateByKey keyOf m key create f)
      ↔ key2 ∈ keysOf keyOf m ∨ key2 = key := by
  rw [keysOf_updateByKey keyOf m key create f hf hc]
  by_cases hmem : key ∈ keysOf keyOf m
  · rw [if_pos hmem]
    constructor
    · exact Or.inl
    · rintro (h | h)
      · exact h
      · rw [h]; exact hmem
  · rw [if_neg hmem]
    simp

theorem nsAccInner_keys (risk : RiskLevel) (cnt : Nat) (nsl : List String)
    (ns2 : String) :
    ∀ acc : List (String × List (RiskLevel × Nat)),
    (ns2 ∈ keysOf Prod.fst (nsl.foldl (fun acc nsName =>
        updateByKey Prod.fst acc nsName (nsName, [])
          (fun p => (p.1, addRiskCount p.2 risk cnt))) acc)
      ↔ ns2 ∈ keysOf Prod.fst acc ∨ ns2 ∈ nsl) := by
  induction nsl with
  | nil => intro acc; simp
  | cons nsName rest ih =>
    intro acc
    rw [List.foldl_cons, ih]
    rw [mem_keysOf_updateByKey_iff Prod.fst acc nsName ns2 (nsName, [])
      (fun p => (p.1, addRiskCount p.2 risk cnt)) (fun x hx => hx) rfl]
    constructor
    · rintro ((h | h) | h)
      · exact Or.inl h
      · exact Or.inr (by simp [h])
      · exact Or.inr (by simp [h])
    · rintro (h | h)
      · exact Or.inl (Or.inl h)
      · rcases List.mem_cons.mp h with h | h
        · exact Or.inl (Or.inr h)
        · exact Or.inr h

theorem nsAccInner_nodup (risk : RiskLevel) (cnt : Nat) (nsl : List String) :
    ∀ acc : List (String × List (RiskLevel × Nat)),
    (keysOf Prod.fst acc).Nodup →
    (keysOf Prod.fst (nsl.foldl (fun acc nsName =>
        updateByKey Prod.fst acc nsName (nsName, [])
          (fun p => (p.1, addRiskCount p.2 risk cnt))) acc)).Nodup := by
  induction nsl with
  | nil => intro acc hm; simpa using hm
  | cons nsName rest ih =>
    intro acc hm
    rw [List.foldl_cons]
    apply ih
    exact nodup_keysOf_updateByKey Prod.fst acc nsName (nsName, []) _
      (fun x hx => hx) rfl hm

theorem nsComplexity_fold_keys (records : UsageMap) (ns2 : String) :
    ∀ acc : List (String × List (RiskLevel × Nat)),
    (ns2 ∈ keysOf Prod.fst (records.foldl nsComplexityAcc acc)
      ↔ ns2 ∈ keysOf Prod.fst acc ∨ ∃ u ∈ records, ns2 ∈ u.namespaces) := by
  induction records with
  | nil => intro acc; simp
  | cons u rest ih =>
    intro acc
    rw [List.foldl_cons, ih]
    unfold nsComplexityAcc
    rw [nsAccInner_keys]
    constructor
    · rintro ((h | h) | h)
      · exact Or.inl h
      · exact Or.inr ⟨u, by simp, h⟩
      · obtain ⟨w, hw, hmem⟩ := h
        exact Or.inr ⟨w, by simp [hw], hmem⟩
    · rintro (h | h)
      · exact Or.inl (Or.inl h)
      · obtain ⟨w, hw, hmem⟩ := h
        rcases List.mem_cons.mp hw with hw | hw
        · exact Or.inl (Or.inr (hw ▸ hmem))
        · exact Or.inr ⟨w, hw, hmem⟩

theorem nsComplexity_fold_nodup (records : UsageMap) :
    ∀ acc : List (String × List (RiskLevel × Nat)),
    (keysOf Prod.fst acc).Nodup →
    (keysOf Prod.fst (records.foldl nsComplexityAcc acc)).Nodup := by
  induction records with
  | nil => intro acc hm; simpa using hm
  | cons u rest ih =>
    intro acc hm
    rw [List.foldl_cons]
    apply ih
    unfold nsComplexityAcc
    exact nsAccInner_nodup u.risk u.usageCount u.namespaces acc hm

theorem nsLabelStep_eq (out : List (String × String))
    (p : String × List (RiskLevel × Nat)) :
    nsLabelStep out p = out ++ (nsLabelFn p).toList := by
  unfold nsLabelStep nsLabelFn
  dsimp only
  split_ifs <;> simp

theorem labelFold_filterMap (ps : List (String × List (RiskLevel × Nat))) :
    ∀ acc : List (String × String),
    ps.foldl nsLabelStep acc = acc ++ ps.filterMap nsLabelFn := by
  induction ps with
  | nil => intro acc; simp
  | cons p rest ih =>
    intro acc
    rw [List.foldl_cons, nsLabelStep_eq, ih, List.filterMap_cons]
    cases hfn : nsLabelFn p with
    | none => simp
    | some q => simp

theorem nsLabelFn_key (p : String × List (RiskLevel × Nat))
    (q : String × String) (h : nsLabelFn p = some q) : q.1 = p.1 := by
  unfold nsLabelFn at h
  by_cases h0 : ((lookupRiskCount p.2 RiskAuto + lookupRiskCount p.2 RiskManual
      + lookupRiskCount p.2 RiskHigh) == 0) = true
  · rw [if_pos h0] at h
    exact absurd h (by simp)
  · rw [if_neg h0] at h
    by_cases h1 : ((lookupRiskCount p.2 RiskHigh : ℚ)
        / ((lookupRiskCount p.2 RiskAuto + lookupRiskCount p.2 RiskManual
          + lookupRiskCount p.2 RiskHigh : Nat) : ℚ) * 100 > 50)
    · rw [if_pos h1] at h
      rw [← Option.some_inj.mp h]
    · rw [if_neg h1] at h
      by_cases h2 : ((lookupRiskCount p.2 RiskHigh : ℚ)
          / ((lookupRiskCount p.2 RiskAuto + lookupRiskCount p.2 RiskManual
            + lookupRiskCount p.2 RiskHigh : Nat) : ℚ) * 100 > 20)
      · rw [if_pos h2] at h
        rw [← Option.some_inj.mp h]
      · rw [if_neg h2] at h
        rw [← Option.some_inj.mp h]

theorem findByKey_filterMap_labels (ps : List (String × List (RiskLevel × Nat)))
    (hnd : (keysOf Prod.fst ps).Nodup) (nsName : String) :
    findByKey Prod.fst (ps.filterMap nsLabelFn) nsName
      = (findByKey Prod.fst ps nsName).bind nsLabelFn := by
  induction ps with
  | nil => rfl
  | cons p rest ih =>
    have hnd2 : (keysOf Prod.fst rest).Nodup := by
      have : keysOf Prod.fst (p :: rest) = p.1 :: keysOf Prod.fst rest := rfl
      rw [this] at hnd
      exact (List.nodup_cons.mp hnd).2
    have hnotin : p.1 ∉ keysOf Prod.fst rest := by
      have : keysOf Prod.fst (p :: rest) = p.1 :: keysOf Prod.fst rest := rfl
      rw [this] at hnd
      exact (List.nodup_cons.mp hnd).1
    rw [List.filterMap_cons]
    by_cases hk : (p.1 == nsName) = true
    · have hkey : p.1 = nsName := by simpa using hk
      have hps : findByKey Prod.fst (p :: rest) nsName = some p := by
        unfold findByKey
        exact List.find?_cons_of_pos _ hk
      rw [hps]
      cases hfn : nsLabelFn p with
      | none =>
        rw [Option.some_bind, hfn]
        show findByKey Prod.fst (rest.filterMap nsLabelFn) nsName = none
        rw [findByKey_eq_none]
        intro x hx
        rcases List.mem_filterMap.mp hx with ⟨p2, hp2, hfn2⟩
        have hx1 : x.1 = p2.1 := nsLabelFn_key p2 x hfn2
        intro hxns
        apply hnotin
        rw [hkey]
        rw [← hxns, hx1]
        exact (mem_keysOf_iff Prod.fst rest p2.1).mpr ⟨p2, hp2, rfl⟩
      | some q =>
        have hq1 : q.1 = nsName := by rw [nsLabelFn_key p q hfn, hkey]
        rw [Option.some_bind, hfn]
        show findByKey Prod.fst (q :: rest.filterMap nsLabelFn) nsName
          = some q
        unfold findByKey
        exact List.find?_cons_of_pos _ (by simp [hq1])
    · have hps : findByKey Prod.fst (p :: rest) nsName
          = findByKey Prod.fst rest nsName := by
        unfold findByKey
        exact List.find?_cons_of_neg _ (by simp [hk])
      rw [hps]
      cases hfn : nsLabelFn p with
      | none => exact ih hnd2
      | some q =>
        have hq1 : q.1 = p.1 := nsLabelFn_key p q hfn
        show findByKey Prod.fst (q :: rest.filterMap nsLabelFn) nsName
          = (findByKey Prod.fst rest nsName).bind nsLabelFn
        unfold findByKey
        rw [List.find?_cons_of_neg _ (by simp [hq1]; simpa using hk)]
        exact ih hnd2

theorem rat_mul100_gt50 (x : ℚ) : x * 100 > 50 ↔ x > 1/2 := by
  constructor
  · intro h; linarith
  · intro h; linarith

theorem rat_mul100_gt20 (x : ℚ) : x * 100 > 20 ↔ x > 1/5 := by
  constructor
  · intro h; linarith
  · intro h; linarith

/-- Claim C6: for duplicate-free namespace lists, the namespace scorer
omits a namespace iff its accumulated total usage is zero, and otherwise
labels it HIGH iff the high-risk share exceeds one half strictly, MEDIUM
iff it exceeds one fifth strictly but not one half, and LOW otherwise
(shares of exactly one half and one fifth fall to MEDIUM and LOW). -/
theorem analyzeNamespaceComplexity_spec (inv : AnnotationInventory)
    (h : ∀ u ∈ inv.nginxAnnotations, u.namespaces.Nodup) (nsName : String) :
    (findByKey Prod.fst (analyzeNamespaceComplexity inv) nsName = none ↔
      sumUsage inv.nginxAnnotations nsName RiskAuto
        + sumUsage inv.nginxAnnotations nsName RiskManual
        + sumUsage inv.nginxAnnotations nsName RiskHigh = 0) ∧
    (0 < sumUsage inv.nginxAnnotations nsName RiskAuto
        + sumUsage inv.nginxAnnotations nsName RiskManual
        + sumUsage inv.nginxAnnotations nsName RiskHigh →
      findByKey Prod.fst (analyzeNamespaceComplexity inv) nsName
        = some (nsName,
          if (sumUsage inv.nginxAnnotations nsName RiskHigh : ℚ)
              / ((sumUsage inv.nginxAnnotations nsName RiskAuto
                + sumUsage inv.nginxAnnotations nsName RiskManual
                + sumUsage inv.nginxAnnotations nsName RiskHigh : Nat) : ℚ)
              > 1/2 then "HIGH complexity (many high-risk annotations)"
          else if (sumUsage inv.nginxAnnotations nsName RiskHigh : ℚ)
              / ((sumUsage inv.nginxAnnotations nsName RiskAuto
                + sumUsage inv.nginxAnnotations nsName RiskManual
                + sumUsage inv.nginxAnnotations nsName RiskHigh : Nat) : ℚ)
              > 1/5 then "MEDIUM complexity (some high-risk annotations)"
          else "LOW complexity (mostly auto-migratable)")) := by
  have hnodup : (keysOf Prod.fst
      (inv.nginxAnnotations.foldl nsComplexityAcc [])).Nodup := by
    apply nsComplexity_fold_nodup
    simp [keysOf]
  have hlook : ∀ r, nsRiskLookup (inv.nginxAnnotations.foldl nsComplexityAcc [])
      nsName r = sumUsage inv.nginxAnnotations nsName r := by
    intro r
    rw [nsComplexity_fold_lookup inv.nginxAnnotations h nsName r []]
    simp [nsRiskLookup, findByKey]
  have heq : analyzeNamespaceComplexity inv
      = (inv.nginxAnnotations.foldl nsComplexityAcc []).filterMap nsLabelFn := by
    unfold analyzeNamespaceComplexity
    rw [labelFold_filterMap]
    simp
  rw [heq, findByKey_filterMap_labels _ hnodup nsName]
  cases hf : findByKey Prod.fst (inv.nginxAnnotations.foldl nsComplexityAcc [])
      nsName with
  | none =>
    have hzero : ∀ r, sumUsage inv.nginxAnnotations nsName r = 0 := by
      intro r
      rw [← hlook r]
      unfold nsRiskLookup
      rw [hf]
    constructor
    · simp [hzero]
    · intro hpos
      rw [hzero RiskAuto, hzero RiskManual, hzero RiskHigh] at hpos
      exact absurd hpos (by simp)
  | some p =>
    obtain ⟨hk, -⟩ := findByKey_key Prod.fst
      (inv.nginxAnnotations.foldl nsComplexityAcc []) nsName p hf
    have hA : lookupRiskCount p.2 RiskAuto
        = sumUsage inv.nginxAnnotations nsName RiskAuto := by
      rw [← hlook RiskAuto]
      unfold nsRiskLookup
      rw [hf]
    have hM : lookupRiskCount p.2 RiskManual
        = sumUsage inv.nginxAnnotations nsName RiskManual := by
      rw [← hlook RiskManual]
      unfold nsRiskLookup
      rw [hf]
    have hH : lookupRiskCount p.2 RiskHigh
        = sumUsage inv.nginxAnnotations nsName RiskHigh := by
      rw [← hlook RiskHigh]
      unfold nsRiskLookup
      rw [hf]
    rw [Option.some_bind]
    unfold nsLabelFn
    dsimp only
    rw [hA, hM, hH, hk]
    by_cases h0 : (sumUsage inv.nginxAnnotations nsName RiskAuto
        + sumUsage inv.nginxAnnotations nsName RiskManual
        + sumUsage inv.nginxAnnotations nsName RiskHigh) = 0
    · rw [if_pos (by simpa using h0)]
      constructor
      · exact iff_of_true rfl h0
      · intro hpos
        exact absurd h0 (by omega)
    · rw [if_neg (by simpa using h0)]
      by_cases h1 : ((sumUsage inv.nginxAnnotations nsName RiskHigh : ℚ)
          / ((sumUsage inv.nginxAnnotations nsName RiskAuto
            + sumUsage inv.nginxAnnotations nsName RiskManual
            + sumUsage inv.nginxAnnotations nsName RiskHigh : Nat) : ℚ) > 1/2)
      · rw [if_pos ((rat_mul100_gt50 _).mpr h1)]
        constructor
        · exact iff_of_false (by simp) h0
        · intro hpos
          rw [if_pos h1]
      · rw [if_neg (fun hc => h1 ((rat_mul100_gt50 _).mp hc))]
        by_cases h2 : ((sumUsage inv.nginxAnnotations nsName RiskHigh : ℚ)
            / ((sumUsage inv.nginxAnnotations nsName RiskAuto
              + sumUsage inv.nginxAnnotations nsName RiskManual
              + sumUsage inv.nginxAnnotations nsName RiskHigh : Nat) : ℚ) > 1/5)
        · rw [if_pos ((rat_mul100_gt20 _).mpr h2)]
          constructor
          · exact iff_of_false (by simp) h0
          · intro hpos
            rw [if_neg h1, if_pos h2]
        · rw [if_neg (fun hc => h2 ((rat_mul100_gt20 _).mp hc))]
          constructor
          · exact iff_of_false (by simp) h0
          · intro hpos
            rw [if_neg h1, if_neg h2]

/-- The scorer theorem applied to a concrete inventory whose namespace prod
sits exactly at a one-half high-risk share, landing on MEDIUM. -/
theorem analyzeNamespaceComplexity_spec_witness :
    (∀ u ∈ wC6Inv.nginxAnnotations, u.namespaces.Nodup) ∧
    findByKey Prod.fst (analyzeNamespaceComplexity wC6Inv) wC6Ns
      = some (wC6Ns, "MEDIUM complexity (some high-risk annotations)") := by
  constructor
  · decide
  · have hmain := (analyzeNamespaceComplexity_spec wC6Inv (by decide) wC6Ns).2
  -- the namespace total in the witness inventory is 2 with 1 high-risk use
    have hA : sumUsage wC6Inv.nginxAnnotations wC6Ns RiskAuto = 1 := by decide
    have hM : sumUsage wC6Inv.nginxAnnotations wC6Ns RiskManual = 0 := by decide
    have hH : sumUsage wC6Inv.nginxAnnotations wC6Ns RiskHigh = 1 := by decide
    rw [hmain (by rw [hA, hM, hH]; omega)]
    rw [hA, hM, hH]
    norm_num
